import Mathlib

/-!
# strings2: `extracted_string` and its interestingness score

A shallow embedding of `src/strings/extracted_string.hpp`.

* A `std::string` is a list of bytes; a `char` read from it is promoted to `int`
  according to the signedness of `char` on the platform.
* `float` arithmetic is embedded twice. The first definitions compute in an arbitrary
  linearly ordered field `F`, with `exp` a parameter; they carry the statements in which
  no rounding occurs (the guards, the indices, the reads, sums of zeros). The definitions
  named `..._float` are the same statements of the source over a `float_arith`, the
  operations of `float` with nothing assumed of them; `binary32_arith` is IEEE 754
  binary32 (round to nearest, ties to even, overflow to infinity, NaN, signed zero) with
  the `exp` of the C library as a parameter.
* `string_model::weights[k]` is a raw array access; the table is a function from the
  index to the value found there, and every index read is recorded in a trace. A table of
  a given length is a `weight_table`: a call that reads past its end has undefined
  behaviour (`get_proba_interesting_on_table`).
* A constructor that throws, or whose behaviour is undefined, produces no record: it
  returns an `Option`. The standard library calls it makes (`std::string` from a pointer,
  `wstring_convert::to_bytes`) are embedded after the C++ standard.
-/

namespace Strings2

/-- One byte of a `std::string`. -/
abbrev Byte := Fin 256

/-- Implementation-defined choices of the C++ platform that the code depends on. -/
structure platform where
  /-- Whether plain `char` is a signed type. -/
  char_signed : Bool
  /-- Whether `codecvt_utf8` refuses the surrogate code units `0xD800..0xDFFF`. -/
  codecvt_rejects_surrogates : Bool
deriving DecidableEq, Repr

/-- The enumeration `STRING_TYPE`. -/
inductive STRING_TYPE where
  | TYPE_UNDETERMINED
  | TYPE_UTF8
  | TYPE_WIDE_STRING
deriving DecidableEq, Repr

/-- The data members of class `extracted_string`. -/
structure extracted_string where
  m_type : STRING_TYPE
  m_string : List Byte
  m_size_in_bytes : Nat
  m_offset_start : Int
  m_offset_end : Int
deriving DecidableEq, Repr

/-- The external parameter table `string_model` (declared in `string_model.h`, which is
not part of the sources): `weights k` is what the access `string_model::weights[k]` yields. -/
structure string_model (F : Type) where
  bias : F
  weights : Int → F

/-- Conversion of a `size_t` to a 32-bit `int` (two's complement wrap-around). -/
def to_int (n : Nat) : Int := ((n : Int) + 2 ^ 31) % 2 ^ 32 - 2 ^ 31

/-- Promotion to `int` of a `char` holding the byte `b`. -/
def char_value (P : platform) (b : Byte) : Int :=
  if P.char_signed && decide (128 ≤ b.val) then (b.val : Int) - 256 else (b.val : Int)

/-- The access `m_string[i]`, promoted to `int`. -/
def char_at (P : platform) (str : List Byte) (i : Nat) : Int :=
  char_value P (str.getD i 0)

/-- The local state of `get_proba_interesting`: the running `score`, the set `cc` of the
characters seen, and (instrumentation) the indices at which `weights` has been read.
`cc` is a `std::unordered_set<wchar_t>`; the conversion of a `char` to `wchar_t` is
one-to-one, so the set is kept as the set of the `int` values of the characters. -/
structure score_state (F : Type) where
  score : F
  cc : Finset Int
  reads : List Int

/-- The statement `score += string_model::weights[k]`. -/
def add_weight {F : Type} [LinearOrderedField F] (m : string_model F) (st : score_state F)
    (k : Int) : score_state F :=
  { st with score := st.score + m.weights k, reads := st.reads ++ [k] }

/-- The statement `score += string_model::weights[k] * x`. -/
def add_weight_times {F : Type} [LinearOrderedField F] (m : string_model F) (st : score_state F)
    (k : Int) (x : F) : score_state F :=
  { st with score := st.score + m.weights k * x, reads := st.reads ++ [k] }

/-- The body of the `for` loop of `get_proba_interesting` at position `i`. -/
def loop_body {F : Type} [LinearOrderedField F] (P : platform) (m : string_model F)
    (str : List Byte) (l : Int) (st : score_state F) (i : Nat) : score_state F :=
  let st1 : score_state F := { st with cc := insert (char_at P str i) st.cc }
  if 0x9 ≤ char_at P str i ∧ char_at P str i ≤ 0x7E then
    let st2 := add_weight m st1 (char_at P str i - 0x9)
    if (i : Int) + 1 < l ∧ 0x9 ≤ char_at P str (i + 1) ∧ char_at P str (i + 1) ≤ 0x7E then
      add_weight m st2 (118 + (char_at P str i - 0x9) + 118 * (char_at P str (i + 1) - 0x9))
    else
      st2
  else
    add_weight m st1 (118 + 118 + 118 * 118 + 1)

/-- The state of `get_proba_interesting` after `n` iterations of its loop. -/
def loop_state {F : Type} [LinearOrderedField F] (P : platform) (m : string_model F)
    (str : List Byte) (l : Int) (n : Nat) : score_state F :=
  (List.range n).foldl (loop_body P m str l) { score := m.bias, cc := ∅, reads := [] }

/-- The state of `get_proba_interesting` just before the conversion to a probability:
the loop over the positions `0 .. l-1`, then the length term and the distinct-count term. -/
def score_features {F : Type} [LinearOrderedField F] (P : platform) (m : string_model F)
    (str : List Byte) (l : Int) : score_state F :=
  let st := loop_state P m str l l.toNat
  let st3 := add_weight_times m st (118 + 118 + 118 * 118) (l : F)
  add_weight_times m st3 (118 + 118 + 118 * 118 + 2) (st3.cc.card : F)

/-- The method `get_proba_interesting`. -/
def get_proba_interesting {F : Type} [LinearOrderedField F] (exp : F → F) (P : platform)
    (m : string_model F) (self : extracted_string) : F :=
  let l := to_int self.m_string.length
  if l > 16 then 1
  else if l < 4 then 0
  else 1 / (1 + exp (-(score_features P m self.m_string l).score))

/-- The indices at which a call of `get_proba_interesting` reads `string_model::weights`,
in the order of the reads. -/
def weight_reads {F : Type} [LinearOrderedField F] (P : platform)
    (m : string_model F) (self : extracted_string) : List Int :=
  let l := to_int self.m_string.length
  if l > 16 then []
  else if l < 4 then []
  else (score_features P m self.m_string l).reads

/-- The method `is_interesting`. -/
def is_interesting {F : Type} [LinearOrderedField F] (exp : F → F) (P : platform)
    (m : string_model F) (self : extracted_string) : Bool :=
  decide (get_proba_interesting exp P m self > 1 / 2)

/-- The constructor `extracted_string(const char*, size_t, STRING_TYPE, int, int)`; the
buffer `string` holds at least `size_in_bytes` bytes. -/
def extracted_string.from_chars (string : List Byte) (size_in_bytes : Nat) (type : STRING_TYPE)
    (offset_start offset_end : Int) : extracted_string :=
  { m_type := type
    m_string := string.take size_in_bytes
    m_size_in_bytes := size_in_bytes
    m_offset_start := offset_start
    m_offset_end := offset_end }

/-- The byte holding the low eight bits of `n`. -/
def byte_of (n : Nat) : Byte := ⟨n % 256, Nat.mod_lt n (by decide)⟩

/-- UTF-8 encoding of one wide code unit `c` by the facet `std::codecvt_utf8<wchar_t>` of the
C++ standard library (maximal code `0x10FFFF`); `none` is a conversion error. -/
def utf8_encode (P : platform) (c : Nat) : Option (List Byte) :=
  if P.codecvt_rejects_surrogates && decide (0xD800 ≤ c ∧ c ≤ 0xDFFF) then none
  else if c < 0x80 then some [byte_of c]
  else if c < 0x800 then some [byte_of (0xC0 + c / 0x40), byte_of (0x80 + c % 0x40)]
  else if c < 0x10000 then
    some [byte_of (0xE0 + c / 0x1000), byte_of (0x80 + c / 0x40 % 0x40), byte_of (0x80 + c % 0x40)]
  else if c ≤ 0x10FFFF then
    some [byte_of (0xF0 + c / 0x40000), byte_of (0x80 + c / 0x1000 % 0x40),
      byte_of (0x80 + c / 0x40 % 0x40), byte_of (0x80 + c % 0x40)]
  else none

/-- The call `std::wstring_convert<std::codecvt_utf8<wchar_t>>::to_bytes(first, last)` of the
C++ standard library on the code units `units`; `none` stands for the `std::range_error`
it throws when a unit cannot be converted. -/
def to_bytes (P : platform) : List Nat → Option (List Byte)
  | [] => some []
  | c :: cs =>
    match utf8_encode P c, to_bytes P cs with
    | some b, some bs => some (b ++ bs)
    | _, _ => none

/-- The constructor `extracted_string(const wchar_t*, size_t, STRING_TYPE, int, int)`; the
buffer `string` holds at least `size_in_bytes/2` code units; `none` when `to_bytes` throws. -/
def extracted_string.from_wchars (P : platform) (string : List Nat) (size_in_bytes : Nat)
    (type : STRING_TYPE) (offset_start offset_end : Int) : Option extracted_string :=
  match to_bytes P (string.take (size_in_bytes / 2)) with
  | none => none
  | some text =>
    some { m_type := type
           m_string := text
           m_size_in_bytes := size_in_bytes
           m_offset_start := offset_start
           m_offset_end := offset_end }

/-- The accessor `get_size_in_bytes`. -/
def get_size_in_bytes (self : extracted_string) : Nat := self.m_size_in_bytes

/-- The accessor `get_string`. -/
def get_string (self : extracted_string) : List Byte := self.m_string

/-- The accessor `get_type`. -/
def get_type (self : extracted_string) : STRING_TYPE := self.m_type

/-- The accessor `get_offset_start`. -/
def get_offset_start (self : extracted_string) : Int := self.m_offset_start

/-- The accessor `get_offset_end`. -/
def get_offset_end (self : extracted_string) : Int := self.m_offset_end

/-- The constructor `std::string(const char* s)` of the C++ standard library: `s` must
point to a NUL-terminated array, whose bytes before the first NUL are copied. A null pointer
(`none`) violates the precondition: the behaviour is undefined (libstdc++ throws
`std::logic_error`), which is `none`. -/
def string_from_c_str (s : Option (List Byte)) : Option (List Byte) :=
  match s with
  | none => none
  | some chars => some (chars.takeWhile (fun b => b ≠ 0))

/-- The default constructor `extracted_string()`. Its second statement is
`m_string = (std::string) NULL`, the construction of a `std::string` from the null pointer;
`none` when that construction yields no string. -/
def extracted_string.default_constructed : Option extracted_string :=
  match string_from_c_str none with
  | none => none
  | some str =>
    some { m_type := .TYPE_UNDETERMINED
           m_string := str
           m_size_in_bytes := 0
           m_offset_start := 0
           m_offset_end := 0 }

/-- The method `get_type_string`. -/
def get_type_string (self : extracted_string) : String :=
  if self.m_type = .TYPE_UTF8 then "UTF8"
  else if self.m_type = .TYPE_WIDE_STRING then "WIDE_STRING"
  else "UNDETERMINED"

/-- A call of `get_proba_interesting` as a state transformer: the returned value and the
record after the call. The body assigns to local variables only, so the record is the one
the call started with. -/
def get_proba_interesting_call {F : Type} [LinearOrderedField F] (exp : F → F) (P : platform)
    (m : string_model F) (self : extracted_string) : F × extracted_string :=
  (get_proba_interesting exp P m self, self)

/-- A call of `is_interesting` as a state transformer: the returned value and the record
after the call, which is the one left by the call of `get_proba_interesting` it makes. -/
def is_interesting_call {F : Type} [LinearOrderedField F] (exp : F → F) (P : platform)
    (m : string_model F) (self : extracted_string) : Bool × extracted_string :=
  (decide ((get_proba_interesting_call exp P m self).1 > 1 / 2),
    (get_proba_interesting_call exp P m self).2)

/-! ## The scoring code over the arithmetic of `float`

The definitions above compute in an exact ordered field. The ones below are the same
statements of the source with every `float` operation taken from a `float_arith`, of which
nothing is assumed; IEEE 754 binary32 with the `exp` of the C library is one such
arithmetic, exact arithmetic another. -/

/-- The arithmetic of the C++ type `float` as `get_proba_interesting` and `is_interesting`
use it: the literals `0.0f`, `1.0f`, `0.5f`, the conversions `(float) l` of an `int` and
`(float) cc.size()` of a `size_t`, `+`, `*`, unary `-`, `/`, `exp` and `>`. -/
structure float_arith (F : Type) where
  zero : F
  one : F
  half : F
  of_int : Int → F
  of_nat : Nat → F
  add : F → F → F
  mul : F → F → F
  neg : F → F
  div : F → F → F
  exp : F → F
  gt : F → F → Bool

/-- Exact arithmetic in an ordered field, with a given exponential. -/
def field_arith {F : Type} [LinearOrderedField F] (exp : F → F) : float_arith F :=
  { zero := 0
    one := 1
    half := 1 / 2
    of_int := fun n => (n : F)
    of_nat := fun n => (n : F)
    add := fun a b => a + b
    mul := fun a b => a * b
    neg := fun a => -a
    div := fun a b => a / b
    exp := exp
    gt := fun a b => decide (a > b) }

/-- The statement `score += string_model::weights[k]`, in the arithmetic `A`. -/
def add_weight_float {F : Type} (A : float_arith F) (m : string_model F) (st : score_state F)
    (k : Int) : score_state F :=
  { st with score := A.add st.score (m.weights k), reads := st.reads ++ [k] }

/-- The statement `score += string_model::weights[k] * x`, in the arithmetic `A`. -/
def add_weight_times_float {F : Type} (A : float_arith F) (m : string_model F)
    (st : score_state F) (k : Int) (x : F) : score_state F :=
  { st with score := A.add st.score (A.mul (m.weights k) x), reads := st.reads ++ [k] }

/-- The body of the `for` loop of `get_proba_interesting` at position `i`, in the
arithmetic `A`. -/
def loop_body_float {F : Type} (A : float_arith F) (P : platform) (m : string_model F)
    (str : List Byte) (l : Int) (st : score_state F) (i : Nat) : score_state F :=
  let st1 : score_state F := { st with cc := insert (char_at P str i) st.cc }
  if 0x9 ≤ char_at P str i ∧ char_at P str i ≤ 0x7E then
    let st2 := add_weight_float A m st1 (char_at P str i - 0x9)
    if (i : Int) + 1 < l ∧ 0x9 ≤ char_at P str (i + 1) ∧ char_at P str (i + 1) ≤ 0x7E then
      add_weight_float A m st2
        (118 + (char_at P str i - 0x9) + 118 * (char_at P str (i + 1) - 0x9))
    else
      st2
  else
    add_weight_float A m st1 (118 + 118 + 118 * 118 + 1)

/-- The state of `get_proba_interesting` after `n` iterations of its loop, in the
arithmetic `A`. -/
def loop_state_float {F : Type} (A : float_arith F) (P : platform) (m : string_model F)
    (str : List Byte) (l : Int) (n : Nat) : score_state F :=
  (List.range n).foldl (loop_body_float A P m str l) { score := m.bias, cc := ∅, reads := [] }

/-- The state of `get_proba_interesting` just before the conversion to a probability, in
the arithmetic `A`. -/
def score_features_float {F : Type} (A : float_arith F) (P : platform) (m : string_model F)
    (str : List Byte) (l : Int) : score_state F :=
  let st := loop_state_float A P m str l l.toNat
  let st3 := add_weight_times_float A m st (118 + 118 + 118 * 118) (A.of_int l)
  add_weight_times_float A m st3 (118 + 118 + 118 * 118 + 2) (A.of_nat st3.cc.card)

/-- The method `get_proba_interesting`, in the arithmetic `A`. -/
def get_proba_interesting_float {F : Type} (A : float_arith F) (P : platform)
    (m : string_model F) (self : extracted_string) : F :=
  let l := to_int self.m_string.length
  if l > 16 then A.one
  else if l < 4 then A.zero
  else A.div A.one (A.add A.one (A.exp (A.neg (score_features_float A P m self.m_string l).score)))

/-- The indices at which a call of `get_proba_interesting` reads `string_model::weights`,
in the arithmetic `A`. -/
def weight_reads_float {F : Type} (A : float_arith F) (P : platform) (m : string_model F)
    (self : extracted_string) : List Int :=
  let l := to_int self.m_string.length
  if l > 16 then []
  else if l < 4 then []
  else (score_features_float A P m self.m_string l).reads

/-- The method `is_interesting`, in the arithmetic `A`. -/
def is_interesting_float {F : Type} (A : float_arith F) (P : platform) (m : string_model F)
    (self : extracted_string) : Bool :=
  A.gt (get_proba_interesting_float A P m self) A.half

/-- The table of `string_model.h` as an array: a bias and `weights.length` weights. -/
structure weight_table (F : Type) where
  bias : F
  weights : List F

/-- What the memory at `string_model::weights` holds for a table: the entry `k` for an index
inside the array; the value taken outside is of no account, a read there being undefined. -/
def weight_table.memory {F : Type} (t : weight_table F) (filler : F) : string_model F :=
  { bias := t.bias, weights := fun k => t.weights.getD k.toNat filler }

/-- What a call of `get_proba_interesting` can come to. The source has no `throw` and no
test of an index, so an error report is never what it comes to. -/
inductive call_outcome (F : Type) where
  | returns (p : F)
  | invalid_model_error
  | undefined_behaviour

/-- A call of `get_proba_interesting` against a table: `string_model::weights[k]` indexes a
raw array, so the call returns its value when every index it reads lies inside the array,
and its behaviour is undefined as soon as one does not. -/
def get_proba_interesting_on_table {F : Type} (A : float_arith F) (P : platform)
    (t : weight_table F) (self : extracted_string) : call_outcome F :=
  if ∀ k ∈ weight_reads_float A P (t.memory A.zero) self,
      0 ≤ k ∧ k < (t.weights.length : Int) then
    .returns (get_proba_interesting_float A P (t.memory A.zero) self)
  else .undefined_behaviour

/-! ## IEEE 754 binary32

The values and operations of binary32 with rounding to nearest, ties to even. A finite value
is a sign and a magnitude (so the two zeros are kept apart). The `exp` of the C library is
fixed on the special values and on zero; on the other finite arguments it is a
parameter. -/

/-- A binary32 value: NaN, an infinity, or a finite value given by sign and magnitude. -/
inductive binary32 where
  | nan
  | inf (negative : Bool)
  | fin (negative : Bool) (magnitude : ℚ)
deriving DecidableEq

/-- The nearest integer to `n`, the even one of the two when `n` is half-way. -/
def round_half_even (n : ℚ) : Int :=
  if n - ⌊n⌋ < 1 / 2 then ⌊n⌋
  else if 1 / 2 < n - ⌊n⌋ then ⌊n⌋ + 1
  else if ⌊n⌋ % 2 = 0 then ⌊n⌋ else ⌊n⌋ + 1

/-- The spacing of binary32 values around the magnitude `x`: `2^(e-23)` where `e` is the
binary exponent of `x`, at least `-126` (below `2^-126` the values are subnormal). -/
def quantum (x : ℚ) : ℚ := 2 ^ (max (Int.log 2 x) (-126) - 23)

/-- The magnitude `x ≥ 0` rounded to a multiple of its quantum (24 significant bits). -/
def round_magnitude (x : ℚ) : ℚ := round_half_even (x / quantum x) * quantum x

/-- The binary32 value nearest to the real of sign `negative` and magnitude `x`; a rounded
magnitude of `2^128` or more overflows to the infinity of that sign. -/
def round32 (negative : Bool) (x : ℚ) : binary32 :=
  if 2 ^ 128 ≤ round_magnitude x then .inf negative else .fin negative (round_magnitude x)

/-- The real number of sign `negative` and magnitude `x`. -/
def signed (negative : Bool) (x : ℚ) : ℚ := if negative then -x else x

/-- Addition of binary32 values. -/
def binary32.add : binary32 → binary32 → binary32
  | .nan, _ => .nan
  | _, .nan => .nan
  | .inf s, .inf t => if s = t then .inf s else .nan
  | .inf s, .fin _ _ => .inf s
  | .fin _ _, .inf t => .inf t
  | .fin s x, .fin t y =>
    if y = 0 then (if x = 0 then .fin (s && t) 0 else .fin s x)
    else if x = 0 then .fin t y
    else if signed s x + signed t y = 0 then .fin false 0
    else round32 (decide (signed s x + signed t y < 0)) |signed s x + signed t y|

/-- Multiplication of binary32 values. -/
def binary32.mul : binary32 → binary32 → binary32
  | .nan, _ => .nan
  | _, .nan => .nan
  | .inf s, .inf t => .inf (xor s t)
  | .inf s, .fin t y => if y = 0 then .nan else .inf (xor s t)
  | .fin s x, .inf t => if x = 0 then .nan else .inf (xor s t)
  | .fin s x, .fin t y => round32 (xor s t) (x * y)

/-- Division of binary32 values. -/
def binary32.div : binary32 → binary32 → binary32
  | .nan, _ => .nan
  | _, .nan => .nan
  | .inf _, .inf _ => .nan
  | .inf s, .fin t _ => .inf (xor s t)
  | .fin s _, .inf t => .fin (xor s t) 0
  | .fin s x, .fin t y =>
    if y = 0 then (if x = 0 then .nan else .inf (xor s t)) else round32 (xor s t) (x / y)

/-- Negation of a binary32 value. -/
def binary32.neg : binary32 → binary32
  | .nan => .nan
  | .inf s => .inf (!s)
  | .fin s x => .fin (!s) x

/-- The function `exp` on binary32: NaN for NaN, `+inf` for `+inf`, `+0` for `-inf`, `1` for
either zero, and what the library returns (`libm`, given the real argument) otherwise. -/
def binary32.exp (libm : ℚ → binary32) : binary32 → binary32
  | .nan => .nan
  | .inf s => if s then .fin false 0 else .inf false
  | .fin s x => if x = 0 then .fin false 1 else libm (signed s x)

/-- The comparison `a < b` of binary32 values; false when either is NaN. -/
def binary32.lt : binary32 → binary32 → Bool
  | .nan, _ => false
  | _, .nan => false
  | .inf s, .inf t => s && !t
  | .inf s, .fin _ _ => s
  | .fin _ _, .inf t => !t
  | .fin s x, .fin t y => decide (signed s x < signed t y)

/-- The comparison `a ≤ b` of binary32 values; false when either is NaN. -/
def binary32.le : binary32 → binary32 → Bool
  | .nan, _ => false
  | _, .nan => false
  | .inf s, .inf t => s || !t
  | .inf s, .fin _ _ => s
  | .fin _ _, .inf t => !t
  | .fin s x, .fin t y => decide (signed s x ≤ signed t y)

/-- The arithmetic of binary32, for a given `exp` of the C library. -/
def binary32_arith (libm : ℚ → binary32) : float_arith binary32 :=
  { zero := .fin false 0
    one := .fin false 1
    half := .fin false (1 / 2)
    of_int := fun n => round32 (decide (n < 0)) |(n : ℚ)|
    of_nat := fun n => round32 false (n : ℚ)
    add := binary32.add
    mul := binary32.mul
    neg := binary32.neg
    div := binary32.div
    exp := binary32.exp libm
    gt := fun a b => binary32.lt b a }

/-! ## Definitions used to state the properties -/

/-- What one iteration of the loop adds to `score` at position `i`. -/
def position_term {F : Type} [LinearOrderedField F] (P : platform) (m : string_model F)
    (str : List Byte) (l : Int) (i : Nat) : F :=
  if 0x9 ≤ char_at P str i ∧ char_at P str i ≤ 0x7E then
    m.weights (char_at P str i - 0x9) +
      (if (i : Int) + 1 < l ∧ 0x9 ≤ char_at P str (i + 1) ∧ char_at P str (i + 1) ≤ 0x7E then
        m.weights (118 + (char_at P str i - 0x9) + 118 * (char_at P str (i + 1) - 0x9))
      else 0)
  else
    m.weights (118 + 118 + 118 * 118 + 1)

/-- The indices of `weights` read by one iteration of the loop at position `i`. -/
def position_reads (P : platform) (str : List Byte) (l : Int) (i : Nat) : List Int :=
  if 0x9 ≤ char_at P str i ∧ char_at P str i ≤ 0x7E then
    (char_at P str i - 0x9) ::
      (if (i : Int) + 1 < l ∧ 0x9 ≤ char_at P str (i + 1) ∧ char_at P str (i + 1) ≤ 0x7E then
        [118 + (char_at P str i - 0x9) + 118 * (char_at P str (i + 1) - 0x9)]
      else [])
  else
    [118 + 118 + 118 * 118 + 1]

/-- The byte at position `i` of a text. -/
def byte_at (str : List Byte) (i : Nat) : Byte := str.getD i 0

/-- The byte `b` lies in `[0x09, 0x7E]`. -/
def byte_in_range (b : Byte) : Prop := 0x9 ≤ b.val ∧ b.val ≤ 0x7E

instance : DecidablePred byte_in_range :=
  fun b => inferInstanceAs (Decidable (0x9 ≤ b.val ∧ b.val ≤ 0x7E))

/-- The linear score as the specification words it, for a text `str` of length `L`:
the bias, the unigram weights of the positions whose byte is in `[0x09,0x7E]`, the bigram
weights of the positions `i` with `i+1 < L` whose byte and next byte are both in range,
the number of out-of-range positions times the weight at `base + 1`, `L` times the weight
at `base`, and the number of distinct byte values times the weight at `base + 2`.
The specification takes `base = 118 + 118*118`. -/
def spec_linear_score {F : Type} [LinearOrderedField F] (base : Int) (m : string_model F)
    (str : List Byte) : F :=
  m.bias
  + ∑ i in (Finset.range str.length).filter (fun i => byte_in_range (byte_at str i)),
      m.weights (((byte_at str i).val : Int) - 0x9)
  + ∑ i in (Finset.range str.length).filter (fun i => i + 1 < str.length ∧
        byte_in_range (byte_at str i) ∧ byte_in_range (byte_at str (i + 1))),
      m.weights (118 + (((byte_at str i).val : Int) - 0x9)
        + 118 * (((byte_at str (i + 1)).val : Int) - 0x9))
  + (((Finset.range str.length).filter (fun i => ¬ byte_in_range (byte_at str i))).card : F)
      * m.weights (base + 1)
  + (str.length : F) * m.weights base
  + (str.toFinset.card : F) * m.weights (base + 2)

/-- The model with bias `0` whose only non-zero weight is `w`, stored at index `k`. -/
def slot_model (F : Type) [LinearOrderedField F] (k : Int) (w : F) : string_model F :=
  { bias := 0, weights := fun j => if j = k then w else 0 }

/-- The record of the four-byte text `"abcd"` found at offsets 100 to 104. -/
def abcd : extracted_string :=
  { m_type := .TYPE_UTF8, m_string := [0x61, 0x62, 0x63, 0x64], m_size_in_bytes := 4,
    m_offset_start := 100, m_offset_end := 104 }

/-- A record whose text is `2^31` bytes `'A'`. -/
def two_gib_text : extracted_string :=
  { m_type := .TYPE_UTF8, m_string := List.replicate 2147483648 0x41,
    m_size_in_bytes := 2147483648, m_offset_start := 0, m_offset_end := 0 }

/-- A record whose text is five bytes `0x80`, all outside `[0x09, 0x7E]`. -/
def five_high_bytes : extracted_string :=
  { m_type := .TYPE_UTF8, m_string := [0x80, 0x80, 0x80, 0x80, 0x80], m_size_in_bytes := 5,
    m_offset_start := 0, m_offset_end := 5 }

/-- A UTF-8 continuation byte, `0x80..0xBF`. -/
def is_continuation (b : Byte) : Bool := decide (0x80 ≤ b.val ∧ b.val ≤ 0xBF)

/-- Well-formed UTF-8 byte sequences, after table 3-7 of the Unicode Standard: one byte
`00..7F`; two bytes `C2..DF 80..BF`; three bytes `E0 A0..BF 80..BF`, `E1..EC 80..BF 80..BF`,
`ED 80..9F 80..BF`, `EE..EF 80..BF 80..BF`; four bytes `F0 90..BF 80..BF 80..BF`,
`F1..F3 80..BF 80..BF 80..BF`, `F4 80..8F 80..BF 80..BF`. -/
def utf8_valid : List Byte → Bool
  | [] => true
  | b0 :: bs =>
    if b0.val < 0x80 then utf8_valid bs
    else
      match bs with
      | [] => false
      | b1 :: bs1 =>
        if 0xC2 ≤ b0.val ∧ b0.val ≤ 0xDF then is_continuation b1 && utf8_valid bs1
        else
          match bs1 with
          | [] => false
          | b2 :: bs2 =>
            if 0xE0 ≤ b0.val ∧ b0.val ≤ 0xEF then
              is_continuation b1 && decide (b0.val = 0xE0 → 0xA0 ≤ b1.val)
                && decide (b0.val = 0xED → b1.val ≤ 0x9F)
                && is_continuation b2 && utf8_valid bs2
            else
              match bs2 with
              | [] => false
              | b3 :: bs3 =>
                if 0xF0 ≤ b0.val ∧ b0.val ≤ 0xF4 then
                  is_continuation b1 && decide (b0.val = 0xF0 → 0x90 ≤ b1.val)
                    && decide (b0.val = 0xF4 → b1.val ≤ 0x8F)
                    && is_continuation b2 && is_continuation b3 && utf8_valid bs3
                else false

/-- The code unit `u` is a Unicode scalar value: at most `0x10FFFF` and no surrogate. -/
def is_scalar_value (u : Nat) : Prop := u < 0xD800 ∨ (0xE000 ≤ u ∧ u ≤ 0x10FFFF)

instance : DecidablePred is_scalar_value :=
  fun u => inferInstanceAs (Decidable (u < 0xD800 ∨ (0xE000 ≤ u ∧ u ≤ 0x10FFFF)))

/-- The index at which the loop reads the unigram weight of the byte `c`: `c - 0x9`. -/
def unigram_index (c : Byte) : Int := (c.val : Int) - 0x9

/-- The index at which the loop reads the bigram weight of the byte `c` followed by `d`:
`118 + (c - 0x9) + 118 * (d - 0x9)`. -/
def bigram_index (c d : Byte) : Int := 118 + ((c.val : Int) - 0x9) + 118 * ((d.val : Int) - 0x9)

/-- The index read in the non-Latin branch of the loop. -/
def non_latin_index : Int := 118 + 118 + 118 * 118 + 1

/-- The index read for the string length term. -/
def length_index : Int := 118 + 118 + 118 * 118

/-- The index read for the distinct character count term. -/
def distinct_index : Int := 118 + 118 + 118 * 118 + 2

/-- The model with bias `0` whose weights are `k` on every bigram slot
`118 .. 118 + 118*118 - 1` and zero elsewhere. -/
def bigram_model (F : Type) [LinearOrderedField F] (k : F) : string_model F :=
  { bias := 0, weights := fun j => if 118 ≤ j ∧ j ≤ 118 + 118 * 118 - 1 then k else 0 }

/-- The record of the eight-byte text `"abcdefgh"`. -/
def abcdefgh : extracted_string :=
  { m_type := .TYPE_UTF8, m_string := [0x61, 0x62, 0x63, 0x64, 0x65, 0x66, 0x67, 0x68],
    m_size_in_bytes := 8, m_offset_start := 0, m_offset_end := 8 }

/-- What position `i` of the text does to the running score `s`, in the arithmetic `A`: a
byte in `[0x09,0x7E]` adds its unigram weight and then, when a next byte exists and is in
range too, the bigram weight of the pair; a byte out of range adds the non-Latin weight. -/
def position_update {F : Type} (A : float_arith F) (m : string_model F) (str : List Byte)
    (s : F) (i : Nat) : F :=
  if byte_in_range (byte_at str i) then
    if i + 1 < str.length ∧ byte_in_range (byte_at str (i + 1)) then
      A.add (A.add s (m.weights (unigram_index (byte_at str i))))
        (m.weights (bigram_index (byte_at str i) (byte_at str (i + 1))))
    else A.add s (m.weights (unigram_index (byte_at str i)))
  else A.add s (m.weights non_latin_index)

/-- The linear score accumulated in the order of the code, in the arithmetic `A`: starting
from the bias, the positions `0 .. L-1` in turn, then the weight at `118+118+118*118` times
the length, then the weight at `118+118+118*118+2` times the number of distinct bytes. -/
def ordered_score {F : Type} (A : float_arith F) (m : string_model F) (str : List Byte) : F :=
  A.add
    (A.add ((List.range str.length).foldl (position_update A m str) m.bias)
      (A.mul (m.weights length_index) (A.of_int (str.length : Int))))
    (A.mul (m.weights distinct_index) (A.of_nat str.toFinset.card))

/-- The positions `i` with `i + 1 < L` whose byte and next byte are both in `[0x09,0x7E]`. -/
def bigram_positions (str : List Byte) : Finset Nat :=
  (Finset.range str.length).filter (fun i => i + 1 < str.length ∧
    byte_in_range (byte_at str i) ∧ byte_in_range (byte_at str (i + 1)))

/-- The model with bias `2^24`, the unigram weight `1` for `'a'` (index 88), the bigram
weight `-2^24` for `'a','b'` (index 10708) and every other weight zero, over a field. -/
def cancel_model (F : Type) [LinearOrderedField F] : string_model F :=
  { bias := 16777216
    weights := fun j => if j = 88 then 1 else if j = 10708 then -16777216 else 0 }

/-- The model of `cancel_model` in binary32. -/
def cancel_model32 : string_model binary32 :=
  { bias := .fin false 16777216
    weights := fun j =>
      if j = 88 then .fin false 1 else if j = 10708 then .fin true 16777216 else .fin false 0 }

/-- The binary32 model with bias `+0` whose only other weight is `w`, stored at index `k`. -/
def slot_model32 (k : Int) (w : binary32) : string_model binary32 :=
  { bias := .fin false 0, weights := fun j => if j = k then w else .fin false 0 }

/-- The model of `bigram_model` in the arithmetic `A`: the bias and every weight outside the
bigram slots are the `float` zero of `A`. -/
def bigram_model_float {F : Type} (A : float_arith F) (k : F) : string_model F :=
  { bias := A.zero, weights := fun j => if 118 ≤ j ∧ j ≤ 118 + 118 * 118 - 1 then k else A.zero }

/-- The record of the seven-byte text `"abcdefg"`. -/
def abcdefg : extracted_string :=
  { m_type := .TYPE_UTF8, m_string := [0x61, 0x62, 0x63, 0x64, 0x65, 0x66, 0x67],
    m_size_in_bytes := 7, m_offset_start := 0, m_offset_end := 7 }

/-- The index `j` is a bigram slot of the table: `118 ≤ j ≤ 118 + 118*118 - 1`. -/
def bigram_slot (j : Int) : Bool := decide (118 ≤ j ∧ j ≤ 118 + 118 * 118 - 1)

/-! ## The loop of `get_proba_interesting` -/

section loop

variable {F : Type} [LinearOrderedField F]

theorem loop_body_score (P : platform) (m : string_model F) (str : List Byte) (l : Int)
    (st : score_state F) (i : Nat) :
    (loop_body P m str l st i).score = st.score + position_term P m str l i := by
  unfold loop_body position_term add_weight
  split_ifs <;> simp [add_assoc]

theorem loop_body_cc (P : platform) (m : string_model F) (str : List Byte) (l : Int)
    (st : score_state F) (i : Nat) :
    (loop_body P m str l st i).cc = insert (char_at P str i) st.cc := by
  unfold loop_body add_weight
  split_ifs <;> rfl

theorem loop_body_reads (P : platform) (m : string_model F) (str : List Byte) (l : Int)
    (st : score_state F) (i : Nat) :
    (loop_body P m str l st i).reads = st.reads ++ position_reads P str l i := by
  unfold loop_body position_reads add_weight
  split_ifs <;> simp

theorem loop_state_zero (P : platform) (m : string_model F) (str : List Byte) (l : Int) :
    loop_state P m str l 0 = { score := m.bias, cc := ∅, reads := [] } := by
  simp [loop_state]

theorem loop_state_succ (P : platform) (m : string_model F) (str : List Byte) (l : Int) (n : Nat) :
    loop_state P m str l (n + 1) = loop_body P m str l (loop_state P m str l n) n := by
  simp [loop_state, List.range_succ, List.foldl_append]

theorem loop_state_score (P : platform) (m : string_model F) (str : List Byte) (l : Int) (n : Nat) :
    (loop_state P m str l n).score
      = m.bias + ∑ i in Finset.range n, position_term P m str l i := by
  induction n with
  | zero => simp [loop_state_zero]
  | succ n ih => rw [loop_state_succ, loop_body_score, ih, Finset.sum_range_succ, add_assoc]

theorem loop_state_cc (P : platform) (m : string_model F) (str : List Byte) (l : Int) (n : Nat) :
    (loop_state P m str l n).cc = (Finset.range n).image (char_at P str) := by
  induction n with
  | zero => simp [loop_state_zero]
  | succ n ih => rw [loop_state_succ, loop_body_cc, ih, Finset.range_succ, Finset.image_insert]

theorem mem_loop_state_reads (P : platform) (m : string_model F) (str : List Byte) (l : Int)
    (n : Nat) (k : Int) :
    k ∈ (loop_state P m str l n).reads ↔ ∃ i, i < n ∧ k ∈ position_reads P str l i := by
  induction n with
  | zero => simp [loop_state_zero]
  | succ n ih =>
    rw [loop_state_succ, loop_body_reads, List.mem_append, ih]
    constructor
    · rintro (⟨i, hi, hk⟩ | hk)
      · exact ⟨i, Nat.lt_succ_of_lt hi, hk⟩
      · exact ⟨n, Nat.lt_succ_self n, hk⟩
    · rintro ⟨i, hi, hk⟩
      rcases Nat.lt_succ_iff_lt_or_eq.mp hi with h | h
      · exact Or.inl ⟨i, h, hk⟩
      · exact Or.inr (h ▸ hk)

end loop

/-! ## Bytes, characters and the length -/

theorem to_int_of_lt (n : Nat) (h : n < 2147483648) : to_int n = (n : Int) := by
  unfold to_int
  omega

theorem char_value_range_iff (P : platform) (b : Byte) :
    (0x9 ≤ char_value P b ∧ char_value P b ≤ 0x7E) ↔ byte_in_range b := by
  have hb := b.isLt
  unfold char_value byte_in_range
  split_ifs with hs
  · simp at hs
    omega
  · omega

theorem char_value_of_in_range (P : platform) (b : Byte) (h : byte_in_range b) :
    char_value P b = (b.val : Int) := by
  unfold byte_in_range at h
  unfold char_value
  split_ifs with hs
  · simp at hs
    omega
  · rfl

theorem char_value_injective (P : platform) : Function.Injective (char_value P) := by
  intro a b h
  have ha := a.isLt
  have hb := b.isLt
  apply Fin.ext
  unfold char_value at h
  split_ifs at h with h1 h2 h2 <;> simp at h1 h2 <;> omega

theorem char_at_range_iff (P : platform) (str : List Byte) (i : Nat) :
    (0x9 ≤ char_at P str i ∧ char_at P str i ≤ 0x7E) ↔ byte_in_range (byte_at str i) :=
  char_value_range_iff P (str.getD i 0)

theorem char_at_of_in_range (P : platform) (str : List Byte) (i : Nat)
    (h : byte_in_range (byte_at str i)) : char_at P str i = ((byte_at str i).val : Int) :=
  char_value_of_in_range P (str.getD i 0) h

theorem image_byte_at_range (str : List Byte) :
    (Finset.range str.length).image (byte_at str) = str.toFinset := by
  ext b
  simp only [Finset.mem_image, Finset.mem_range, List.mem_toFinset, byte_at]
  constructor
  · rintro ⟨i, hi, rfl⟩
    rw [List.getD_eq_getElem _ _ hi]
    exact List.getElem_mem hi
  · intro hb
    obtain ⟨i, hi, rfl⟩ := List.getElem_of_mem hb
    exact ⟨i, hi, List.getD_eq_getElem _ _ hi⟩

theorem card_image_char_at (P : platform) (str : List Byte) :
    ((Finset.range str.length).image (char_at P str)).card = str.toFinset.card := by
  have h : (Finset.range str.length).image (char_at P str)
      = ((Finset.range str.length).image (byte_at str)).image (char_value P) := by
    rw [Finset.image_image]
    rfl
  rw [h, image_byte_at_range, Finset.card_image_of_injective _ (char_value_injective P)]

/-! ## The linear score in closed form -/

section closed_form

variable {F : Type} [LinearOrderedField F]

theorem position_term_split (P : platform) (m : string_model F) (str : List Byte) (L i : Nat) :
    position_term P m str (L : Int) i
      = (if byte_in_range (byte_at str i) then
          m.weights (((byte_at str i).val : Int) - 0x9) else 0)
      + (if i + 1 < L ∧ byte_in_range (byte_at str i) ∧ byte_in_range (byte_at str (i + 1)) then
          m.weights (118 + (((byte_at str i).val : Int) - 0x9)
            + 118 * (((byte_at str (i + 1)).val : Int) - 0x9)) else 0)
      + (if ¬ byte_in_range (byte_at str i) then m.weights (118 + 118 + 118 * 118 + 1) else 0) := by
  have hlt : ((i : Int) + 1 < (L : Int)) ↔ i + 1 < L := by omega
  unfold position_term
  simp only [char_at_range_iff, hlt]
  by_cases h : byte_in_range (byte_at str i)
  · by_cases h1 : byte_in_range (byte_at str (i + 1))
    · simp [h, h1, char_at_of_in_range P str i h, char_at_of_in_range P str (i + 1) h1]
    · simp [h, h1, char_at_of_in_range P str i h]
  · simp [h]

theorem sum_position_term (P : platform) (m : string_model F) (str : List Byte) (L n : Nat) :
    ∑ i in Finset.range n, position_term P m str (L : Int) i
      = ∑ i in (Finset.range n).filter (fun i => byte_in_range (byte_at str i)),
          m.weights (((byte_at str i).val : Int) - 0x9)
      + ∑ i in (Finset.range n).filter (fun i => i + 1 < L ∧
            byte_in_range (byte_at str i) ∧ byte_in_range (byte_at str (i + 1))),
          m.weights (118 + (((byte_at str i).val : Int) - 0x9)
            + 118 * (((byte_at str (i + 1)).val : Int) - 0x9))
      + (((Finset.range n).filter (fun i => ¬ byte_in_range (byte_at str i))).card : F)
          * m.weights (118 + 118 + 118 * 118 + 1) := by
  simp only [position_term_split, Finset.sum_add_distrib, Finset.sum_filter,
    ← Finset.sum_filter (fun i => ¬ byte_in_range (byte_at str i)) (fun _ => m.weights (118 + 118 + 118 * 118 + 1)),
    Finset.sum_const, nsmul_eq_mul]

theorem score_features_score (P : platform) (m : string_model F) (str : List Byte) :
    (score_features P m str (str.length : Int)).score
      = spec_linear_score (118 + 118 + 118 * 118) m str := by
  unfold score_features add_weight_times spec_linear_score
  simp only [Int.toNat_ofNat, loop_state_score, loop_state_cc, card_image_char_at,
    sum_position_term, Int.cast_natCast]
  ring

theorem get_proba_interesting_in_model (exp : F → F) (P : platform) (m : string_model F)
    (self : extracted_string) (h4 : 4 ≤ self.m_string.length) (h16 : self.m_string.length ≤ 16) :
    get_proba_interesting exp P m self
      = 1 / (1 + exp (-(spec_linear_score (118 + 118 + 118 * 118) m self.m_string))) := by
  have hl : to_int self.m_string.length = (self.m_string.length : Int) :=
    to_int_of_lt _ (by omega)
  unfold get_proba_interesting
  simp only [hl]
  rw [if_neg (by omega), if_neg (by omega), score_features_score]

theorem get_proba_interesting_short (exp : F → F) (P : platform) (m : string_model F)
    (self : extracted_string) (h : self.m_string.length < 4) :
    get_proba_interesting exp P m self = 0 := by
  have hl : to_int self.m_string.length = (self.m_string.length : Int) :=
    to_int_of_lt _ (by omega)
  unfold get_proba_interesting
  simp only [hl]
  rw [if_neg (by omega), if_pos (by omega)]

theorem get_proba_interesting_long (exp : F → F) (P : platform) (m : string_model F)
    (self : extracted_string) (h : 16 < self.m_string.length)
    (hmax : self.m_string.length < 2147483648) :
    get_proba_interesting exp P m self = 1 := by
  have hl : to_int self.m_string.length = (self.m_string.length : Int) :=
    to_int_of_lt _ hmax
  unfold get_proba_interesting
  simp only [hl]
  rw [if_pos (by omega)]

/-- When every unigram and bigram weight is zero, only the three scalar terms remain. -/
theorem spec_linear_score_scalar_only (base : Int) (m : string_model F) (str : List Byte)
    (hw : ∀ k : Int, 0 ≤ k → k < 118 + 118 * 118 → m.weights k = 0) :
    spec_linear_score base m str
      = m.bias
        + (((Finset.range str.length).filter (fun i => ¬ byte_in_range (byte_at str i))).card : F)
            * m.weights (base + 1)
        + (str.length : F) * m.weights base
        + (str.toFinset.card : F) * m.weights (base + 2) := by
  unfold spec_linear_score
  rw [Finset.sum_eq_zero, Finset.sum_eq_zero]
  · simp
  · intro i hi
    obtain ⟨-, h1, h2⟩ := (Finset.mem_filter.mp hi).2
    unfold byte_in_range at h1 h2
    exact hw _ (by omega) (by omega)
  · intro i hi
    have h1 := (Finset.mem_filter.mp hi).2
    unfold byte_in_range at h1
    exact hw _ (by omega) (by omega)

theorem position_reads_bound (P : platform) (str : List Byte) (l : Int) (i : Nat) (k : Int)
    (h : k ∈ position_reads P str l i) : 0 ≤ k ∧ k < 118 + 118 + 118 * 118 + 3 := by
  unfold position_reads at h
  split_ifs at h with h1 h2
  · simp only [List.mem_cons, List.mem_singleton, List.not_mem_nil, or_false] at h
    rcases h with rfl | rfl <;> omega
  · simp only [List.mem_singleton] at h
    omega
  · simp only [List.mem_singleton] at h
    omega

theorem mem_score_features_reads (P : platform) (m : string_model F) (str : List Byte) (l : Int)
    (k : Int) :
    k ∈ (score_features P m str l).reads ↔
      (∃ i, i < l.toNat ∧ k ∈ position_reads P str l i)
        ∨ k = 118 + 118 + 118 * 118 ∨ k = 118 + 118 + 118 * 118 + 2 := by
  unfold score_features add_weight_times
  simp only [List.mem_append, List.mem_singleton, mem_loop_state_reads, or_assoc]

theorem weight_reads_in_model (P : platform) (m : string_model F) (self : extracted_string)
    (h4 : 4 ≤ self.m_string.length) (h16 : self.m_string.length ≤ 16) :
    weight_reads P m self
      = (score_features P m self.m_string (self.m_string.length : Int)).reads := by
  have hl : to_int self.m_string.length = (self.m_string.length : Int) :=
    to_int_of_lt _ (by omega)
  unfold weight_reads
  simp only [hl]
  rw [if_neg (by omega), if_neg (by omega)]

theorem weight_reads_bound (P : platform) (m : string_model F) (self : extracted_string)
    (k : Int) (h : k ∈ weight_reads P m self) : 0 ≤ k ∧ k < 118 + 118 + 118 * 118 + 3 := by
  unfold weight_reads at h
  simp only at h
  split_ifs at h
  · simp at h
  · simp at h
  · rw [mem_score_features_reads] at h
    rcases h with ⟨i, -, hi⟩ | rfl | rfl
    · exact position_reads_bound P _ _ i k hi
    · omega
    · omega

theorem length_slot_mem_weight_reads (P : platform) (m : string_model F) (self : extracted_string)
    (h4 : 4 ≤ self.m_string.length) (h16 : self.m_string.length ≤ 16) :
    (118 + 118 + 118 * 118 : Int) ∈ weight_reads P m self := by
  rw [weight_reads_in_model P m self h4 h16, mem_score_features_reads]
  exact Or.inr (Or.inl rfl)

theorem distinct_slot_mem_weight_reads (P : platform) (m : string_model F)
    (self : extracted_string) (h4 : 4 ≤ self.m_string.length) (h16 : self.m_string.length ≤ 16) :
    (118 + 118 + 118 * 118 + 2 : Int) ∈ weight_reads P m self := by
  rw [weight_reads_in_model P m self h4 h16, mem_score_features_reads]
  exact Or.inr (Or.inr rfl)

theorem filter_out_of_range_eq (str : List Byte) (hout : ∀ b ∈ str, ¬ byte_in_range b) :
    (Finset.range str.length).filter (fun i => ¬ byte_in_range (byte_at str i))
      = Finset.range str.length := by
  apply Finset.filter_true_of_mem
  intro i hi
  have hi' : i < str.length := Finset.mem_range.mp hi
  unfold byte_at
  rw [List.getD_eq_getElem _ _ hi']
  exact hout _ (List.getElem_mem hi')

/-- The linear score of a text made only of out-of-range bytes, when the single non-zero
weight `w` is the one the non-Latin branch reads. -/
theorem score_all_out_of_range (w : F) (str : List Byte) (hout : ∀ b ∈ str, ¬ byte_in_range b) :
    spec_linear_score (118 + 118 + 118 * 118) (slot_model F (118 + 118 + 118 * 118 + 1) w) str
      = (str.length : F) * w := by
  rw [spec_linear_score_scalar_only, filter_out_of_range_eq str hout]
  · simp [slot_model]
  · intro k _ hk
    simp only [slot_model]
    rw [if_neg (by omega)]

theorem score_zero_model (base : Int) (m : string_model F) (str : List Byte) (hb : m.bias = 0)
    (hw : ∀ k, m.weights k = 0) : spec_linear_score base m str = 0 := by
  unfold spec_linear_score
  simp [hb, hw]

end closed_form

/-! ## Real exponential -/

theorem logistic_ne_half (s : ℝ) (hs : s ≠ 0) : 1 / (1 + Real.exp (-s)) ≠ (1 / 2 : ℝ) := by
  intro h
  have hpos : (0 : ℝ) < 1 + Real.exp (-s) := by positivity
  have h2 : 1 + Real.exp (-s) = 2 := by
    field_simp at h
    linarith
  have h3 : Real.exp (-s) = 1 := by linarith
  rw [Real.exp_eq_one_iff] at h3
  exact hs (by linarith)

theorem abcd_score_code_layout (w : ℝ) :
    spec_linear_score (118 + 118 + 118 * 118) (slot_model ℝ (118 + 118 + 118 * 118) w)
      abcd.m_string = 4 * w := by
  rw [spec_linear_score_scalar_only]
  · simp [slot_model, abcd]
  · intro k _ hk
    simp only [slot_model]
    rw [if_neg (by omega)]

theorem abcd_score_spec_layout (w : ℝ) :
    spec_linear_score (118 + 118 * 118) (slot_model ℝ (118 + 118 + 118 * 118) w)
      abcd.m_string = 0 := by
  rw [spec_linear_score_scalar_only]
  · simp [slot_model, abcd]
  · intro k _ hk
    simp only [slot_model]
    rw [if_neg (by omega)]

/-! ## The scoring contract -/

section scoring

variable {F : Type} [LinearOrderedField F]

/-- In exact arithmetic, with bias 0 and the single weight 1 at index `118+118+118*118`, the
text `"abcd"` does not score `1/(1+exp(-s))` for the `s` whose scalar weights sit at
`118+118*118`, `118+118*118+1` and `118+118*118+2`: the value is `1/(1+exp(-4))`, that
formula gives `1/2`. -/
theorem abcd_proba_ne_spec_layout :
    get_proba_interesting Real.exp ⟨true, false⟩ (slot_model ℝ (118 + 118 + 118 * 118) 1) abcd
      ≠ 1 / (1 + Real.exp (-(spec_linear_score (118 + 118 * 118)
          (slot_model ℝ (118 + 118 + 118 * 118) 1) abcd.m_string))) := by
  rw [get_proba_interesting_in_model _ _ _ _ (by decide) (by decide), abcd_score_code_layout,
    abcd_score_spec_layout]
  have h := logistic_ne_half (4 * 1) (by norm_num)
  have h0 : (1 : ℝ) / (1 + Real.exp (-0)) = 1 / 2 := by norm_num [Real.exp_zero]
  rw [h0]
  exact h

/-- C2: for every record whose text has fewer than 4 bytes and for every model,
`get_proba_interesting` returns `0.0` and `is_interesting` returns `false`. -/
theorem short_text_not_interesting (exp : F → F) (P : platform) (m : string_model F)
    (self : extracted_string) (h : self.m_string.length < 4) :
    get_proba_interesting exp P m self = 0 ∧ is_interesting exp P m self = false := by
  have h0 := get_proba_interesting_short exp P m self h
  refine ⟨h0, ?_⟩
  unfold is_interesting
  rw [h0]
  simp

/-- C2 (witness): the empty text, scored against a model with non-zero bias and weights. -/
theorem short_text_not_interesting_witness :
    ([] : List Byte).length < 4 ∧
    get_proba_interesting (fun x : ℚ => x) ⟨true, false⟩ ⟨7, fun _ => 3⟩
      ⟨.TYPE_UNDETERMINED, [], 0, 0, 0⟩ = 0 ∧
    is_interesting (fun x : ℚ => x) ⟨true, false⟩ ⟨7, fun _ => 3⟩
      ⟨.TYPE_UNDETERMINED, [], 0, 0, 0⟩ = false :=
  ⟨by decide, short_text_not_interesting _ _ _ _ (by decide)⟩

/-- C3 (the code at the failing input): a text of `2^31` bytes is longer than 16, yet its
length read into a 32-bit `int` is `-2^31 < 4`, so `get_proba_interesting` returns `0.0`
and `is_interesting` returns `false`, for every model. -/
theorem two_gib_text_not_interesting (exp : F → F) (P : platform) (m : string_model F) :
    16 < two_gib_text.m_string.length ∧
    get_proba_interesting exp P m two_gib_text = 0 ∧
    is_interesting exp P m two_gib_text = false := by
  have hlen : two_gib_text.m_string.length = 2147483648 :=
    List.length_replicate 2147483648 (0x41 : Byte)
  have hl : to_int two_gib_text.m_string.length = -2147483648 := by
    rw [hlen]
    decide
  have h0 : get_proba_interesting exp P m two_gib_text = 0 := by
    unfold get_proba_interesting
    simp only [hl]
    rw [if_neg (by omega), if_pos (by omega)]
  refine ⟨by omega, h0, ?_⟩
  unfold is_interesting
  rw [h0]
  simp

/-- C5: `is_interesting` is the strict test `get_proba_interesting > 0.5`, and for every text
of length 4 to 16 scored with bias `0.0` and an all-zero weight table,
`get_proba_interesting` returns exactly `0.5` and `is_interesting` returns `false`. -/
theorem is_interesting_strict_threshold (exp : F → F) (hexp : exp 0 = 1) (P : platform) :
    (∀ (m : string_model F) (self : extracted_string),
      is_interesting exp P m self = true ↔ get_proba_interesting exp P m self > 1 / 2) ∧
    (∀ (m : string_model F) (self : extracted_string),
      4 ≤ self.m_string.length → self.m_string.length ≤ 16 →
      m.bias = 0 → (∀ k, m.weights k = 0) →
      get_proba_interesting exp P m self = 1 / 2 ∧ is_interesting exp P m self = false) := by
  constructor
  · intro m self
    unfold is_interesting
    exact decide_eq_true_iff
  · intro m self h4 h16 hb hw
    have hp : get_proba_interesting exp P m self = 1 / 2 := by
      rw [get_proba_interesting_in_model exp P m self h4 h16, score_zero_model _ m _ hb hw,
        neg_zero, hexp]
      norm_num
    refine ⟨hp, ?_⟩
    unfold is_interesting
    rw [hp]
    simp

/-- C5 (witness): `"abcd"` with the all-zero model under the real exponential. -/
theorem is_interesting_strict_threshold_witness :
    4 ≤ abcd.m_string.length ∧ abcd.m_string.length ≤ 16 ∧
    get_proba_interesting Real.exp ⟨true, false⟩ (slot_model ℝ 0 0) abcd = 1 / 2 ∧
    is_interesting Real.exp ⟨true, false⟩ (slot_model ℝ 0 0) abcd = false :=
  ⟨by decide, by decide,
    (is_interesting_strict_threshold Real.exp Real.exp_zero ⟨true, false⟩).2 (slot_model ℝ 0 0)
      abcd (by decide) (by decide) rfl (fun k => by simp [slot_model])⟩

/-- C6 (as amended): every index at which `get_proba_interesting` reads the weight table
is `≥ 0` and `< 118 + 118 + 118*118 + 1 + 1 + 1` (= 14163), whatever the text and model. -/
theorem weight_reads_within_code_layout (P : platform) (m : string_model F)
    (self : extracted_string) :
    ∀ k ∈ weight_reads P m self, 0 ≤ k ∧ k < 118 + 118 + 118 * 118 + 1 + 1 + 1 := by
  intro k hk
  have h := weight_reads_bound P m self k hk
  omega

/-- C6 (witness): the length slot `118+118+118*118` is read for `"abcd"`, within the bound. -/
theorem weight_reads_within_code_layout_witness :
    (118 + 118 + 118 * 118 : Int) ∈ weight_reads ⟨true, false⟩ (slot_model ℚ 0 0) abcd ∧
    (0 : Int) ≤ 118 + 118 + 118 * 118 ∧
    (118 + 118 + 118 * 118 : Int) < 118 + 118 + 118 * 118 + 1 + 1 + 1 :=
  ⟨length_slot_mem_weight_reads _ _ abcd (by decide) (by decide),
    weight_reads_within_code_layout ⟨true, false⟩ (slot_model ℚ 0 0) abcd _
      (length_slot_mem_weight_reads _ _ abcd (by decide) (by decide))⟩

/-- C6 (counterexample): scoring `"abcd"` reads index `118+118+118*118 = 14160`, which is
not below the declared length `118 + 118*118 + 1 + 1 + 1 = 14045`. -/
theorem weight_reads_beyond_declared_length :
    ¬ ∀ k ∈ weight_reads ⟨true, false⟩ (slot_model ℚ 0 0) abcd,
      0 ≤ k ∧ k < 118 + 118 * 118 + 1 + 1 + 1 := by
  intro h
  have h1 := h _ (length_slot_mem_weight_reads ⟨true, false⟩ (slot_model ℚ 0 0) abcd
    (by decide) (by decide))
  omega

end scoring

/-! ## The non-Latin slot of the specification -/

theorem five_high_bytes_out_of_range : ∀ b ∈ five_high_bytes.m_string, ¬ byte_in_range b := by
  intro b hb
  simp only [five_high_bytes, List.mem_cons, List.mem_singleton, List.not_mem_nil, or_false,
    or_self] at hb
  subst hb
  unfold byte_in_range
  decide

/-- C9: for every byte sequence `b` (empty or with zero bytes alike), every type `t` and
every pair of offsets `(s, e)`, the record built by the narrow constructor from
`(b, |b|, t, s, e)` has `get_string() = b`, `get_size_in_bytes() = |b|`, `get_type() = t`,
`get_offset_start() = s` and `get_offset_end() = e`. -/
theorem narrow_construction_round_trip (b : List Byte) (t : STRING_TYPE) (s e : Int) :
    get_string (extracted_string.from_chars b b.length t s e) = b ∧
    get_size_in_bytes (extracted_string.from_chars b b.length t s e) = b.length ∧
    get_type (extracted_string.from_chars b b.length t s e) = t ∧
    get_offset_start (extracted_string.from_chars b b.length t s e) = s ∧
    get_offset_end (extracted_string.from_chars b b.length t s e) = e := by
  refine ⟨?_, rfl, rfl, rfl, rfl⟩
  simp [get_string, extracted_string.from_chars]

theorem utf8_encode_ascii (P : platform) (c : Nat) (h : c < 0x80) :
    utf8_encode P c = some [byte_of c] := by
  unfold utf8_encode
  rw [if_neg, if_pos h]
  simp only [Bool.and_eq_true, decide_eq_true_eq, not_and]
  intro _
  omega

theorem to_bytes_ascii (P : platform) (units : List Nat) (h : ∀ u ∈ units, u < 0x80) :
    to_bytes P units = some (units.map byte_of) := by
  induction units with
  | nil => rfl
  | cons c cs ih =>
    have hc : c < 0x80 := h c (List.mem_cons_self c cs)
    have hcs : ∀ u ∈ cs, u < 0x80 := fun u hu => h u (List.mem_cons_of_mem c hu)
    simp [to_bytes, utf8_encode_ascii P c hc, ih hcs]

theorem map_val_byte_of (units : List Nat) (h : ∀ u ∈ units, u < 0x80) :
    (units.map byte_of).map (fun b => b.val) = units := by
  induction units with
  | nil => rfl
  | cons c cs ih =>
    have hc : c < 0x80 := h c (List.mem_cons_self c cs)
    have hcs : ∀ u ∈ cs, u < 0x80 := fun u hu => h u (List.mem_cons_of_mem c hu)
    have hmod : c % 256 = c := Nat.mod_eq_of_lt (by omega)
    simp only [List.map_cons, ih hcs, byte_of, hmod]

/-- C10: for every sequence of `n` wide code units each below `0x80`, passed with byte
length `2n`, the wide constructor yields a record whose text is the `n`-byte string of
those unit values and whose `size_in_bytes` is `2n`; the units `'t','e','s','t'` passed with
byte length 8 yield the text `"test"` and `size_in_bytes` 8. -/
theorem wide_ascii_construction (P : platform) (units : List Nat) (t : STRING_TYPE) (s e : Int)
    (h : ∀ u ∈ units, u < 0x80) :
    extracted_string.from_wchars P units (2 * units.length) t s e
      = some { m_type := t, m_string := units.map byte_of,
               m_size_in_bytes := 2 * units.length, m_offset_start := s, m_offset_end := e } ∧
    (units.map byte_of).length = units.length ∧
    (units.map byte_of).map (fun b => b.val) = units ∧
    extracted_string.from_wchars P [0x74, 0x65, 0x73, 0x74] 8 t s e
      = some { m_type := t, m_string := [0x74, 0x65, 0x73, 0x74],
               m_size_in_bytes := 8, m_offset_start := s, m_offset_end := e } := by
  refine ⟨?_, List.length_map _ _, map_val_byte_of units h, ?_⟩
  · unfold extracted_string.from_wchars
    have htake : units.take (2 * units.length / 2) = units := by
      rw [Nat.mul_div_cancel_left _ (by decide : 0 < 2)]
      exact List.take_length units
    rw [htake, to_bytes_ascii P units h]
  · unfold extracted_string.from_wchars
    have htake : ([0x74, 0x65, 0x73, 0x74] : List Nat).take (8 / 2) = [0x74, 0x65, 0x73, 0x74] :=
      rfl
    rw [htake, to_bytes_ascii P _ (by decide)]
    rfl

/-- C10 (witness): the wide units of `"test"` with byte length 8. -/
theorem wide_ascii_construction_witness :
    (∀ u ∈ ([0x74, 0x65, 0x73, 0x74] : List Nat), u < 0x80) ∧
    extracted_string.from_wchars ⟨true, false⟩ [0x74, 0x65, 0x73, 0x74] 8 .TYPE_WIDE_STRING 100 108
      = some { m_type := .TYPE_WIDE_STRING, m_string := [0x74, 0x65, 0x73, 0x74],
               m_size_in_bytes := 8, m_offset_start := 100, m_offset_end := 108 } :=
  ⟨by decide,
    (wide_ascii_construction ⟨true, false⟩ [0x74, 0x65, 0x73, 0x74] .TYPE_WIDE_STRING 100 108
      (by decide)).2.2.2⟩

/-! ## Well-formed UTF-8 -/

theorem byte_of_val (n : Nat) : (byte_of n).val = n % 256 := rfl

theorem utf8_valid_one (b0 : Byte) (bs : List Byte) (h : b0.val < 0x80) :
    utf8_valid (b0 :: bs) = utf8_valid bs := by
  rw [utf8_valid.eq_def]
  exact if_pos h

theorem utf8_valid_two (b0 b1 : Byte) (bs : List Byte) (h : 0xC2 ≤ b0.val ∧ b0.val ≤ 0xDF) :
    utf8_valid (b0 :: b1 :: bs) = (is_continuation b1 && utf8_valid bs) := by
  rw [utf8_valid.eq_def]
  dsimp only
  rw [if_neg (by omega), if_pos h]

theorem utf8_valid_three (b0 b1 b2 : Byte) (bs : List Byte)
    (h : 0xE0 ≤ b0.val ∧ b0.val ≤ 0xEF) :
    utf8_valid (b0 :: b1 :: b2 :: bs)
      = (is_continuation b1 && decide (b0.val = 0xE0 → 0xA0 ≤ b1.val)
          && decide (b0.val = 0xED → b1.val ≤ 0x9F) && is_continuation b2 && utf8_valid bs) := by
  rw [utf8_valid.eq_def]
  dsimp only
  rw [if_neg (by omega), if_neg (by omega), if_pos h]

theorem utf8_valid_four (b0 b1 b2 b3 : Byte) (bs : List Byte)
    (h : 0xF0 ≤ b0.val ∧ b0.val ≤ 0xF4) :
    utf8_valid (b0 :: b1 :: b2 :: b3 :: bs)
      = (is_continuation b1 && decide (b0.val = 0xF0 → 0x90 ≤ b1.val)
          && decide (b0.val = 0xF4 → b1.val ≤ 0x8F) && is_continuation b2 && is_continuation b3
          && utf8_valid bs) := by
  rw [utf8_valid, if_neg (by omega), if_neg (by omega), if_neg (by omega), if_pos h]

theorem utf8_valid_encode (P : platform) (u : Nat) (h : is_scalar_value u) :
    ∃ enc, utf8_encode P u = some enc ∧ ∀ rest, utf8_valid (enc ++ rest) = utf8_valid rest := by
  unfold is_scalar_value at h
  have hs : ¬ ((P.codecvt_rejects_surrogates && decide (0xD800 ≤ u ∧ u ≤ 0xDFFF)) = true) := by
    simp only [Bool.and_eq_true, decide_eq_true_eq, not_and]
    intro _
    omega
  unfold utf8_encode
  rw [if_neg hs]
  by_cases h1 : u < 0x80
  · rw [if_pos h1]
    refine ⟨_, rfl, fun rest => ?_⟩
    exact utf8_valid_one _ _ (by rw [byte_of_val]; omega)
  · rw [if_neg h1]
    by_cases h2 : u < 0x800
    · rw [if_pos h2]
      refine ⟨_, rfl, fun rest => ?_⟩
      simp only [List.cons_append, List.nil_append]
      rw [utf8_valid_two _ _ _ (by rw [byte_of_val]; omega)]
      have hc : is_continuation (byte_of (0x80 + u % 0x40)) = true := by
        simp only [is_continuation, byte_of_val, decide_eq_true_eq]
        omega
      rw [hc, Bool.true_and]
    · rw [if_neg h2]
      by_cases h3 : u < 0x10000
      · rw [if_pos h3]
        refine ⟨_, rfl, fun rest => ?_⟩
        simp only [List.cons_append, List.nil_append]
        rw [utf8_valid_three _ _ _ _ (by rw [byte_of_val]; omega)]
        have hc1 : is_continuation (byte_of (0x80 + u / 0x40 % 0x40)) = true := by
          simp only [is_continuation, byte_of_val, decide_eq_true_eq]
          omega
        have hc2 : is_continuation (byte_of (0x80 + u % 0x40)) = true := by
          simp only [is_continuation, byte_of_val, decide_eq_true_eq]
          omega
        have hd1 : decide ((byte_of (0xE0 + u / 0x1000)).val = 0xE0 →
            0xA0 ≤ (byte_of (0x80 + u / 0x40 % 0x40)).val) = true := by
          simp only [byte_of_val, decide_eq_true_eq]
          omega
        have hd2 : decide ((byte_of (0xE0 + u / 0x1000)).val = 0xED →
            (byte_of (0x80 + u / 0x40 % 0x40)).val ≤ 0x9F) = true := by
          simp only [byte_of_val, decide_eq_true_eq]
          omega
        rw [hc1, hc2, hd1, hd2]
        rfl
      · rw [if_neg h3]
        have h4 : u ≤ 0x10FFFF := by omega
        rw [if_pos h4]
        refine ⟨_, rfl, fun rest => ?_⟩
        simp only [List.cons_append, List.nil_append]
        rw [utf8_valid_four _ _ _ _ _ (by rw [byte_of_val]; omega)]
        have hc1 : is_continuation (byte_of (0x80 + u / 0x1000 % 0x40)) = true := by
          simp only [is_continuation, byte_of_val, decide_eq_true_eq]
          omega
        have hc2 : is_continuation (byte_of (0x80 + u / 0x40 % 0x40)) = true := by
          simp only [is_continuation, byte_of_val, decide_eq_true_eq]
          omega
        have hc3 : is_continuation (byte_of (0x80 + u % 0x40)) = true := by
          simp only [is_continuation, byte_of_val, decide_eq_true_eq]
          omega
        have hd1 : decide ((byte_of (0xF0 + u / 0x40000)).val = 0xF0 →
            0x90 ≤ (byte_of (0x80 + u / 0x1000 % 0x40)).val) = true := by
          simp only [byte_of_val, decide_eq_true_eq]
          omega
        have hd2 : decide ((byte_of (0xF0 + u / 0x40000)).val = 0xF4 →
            (byte_of (0x80 + u / 0x1000 % 0x40)).val ≤ 0x8F) = true := by
          simp only [byte_of_val, decide_eq_true_eq]
          omega
        rw [hc1, hc2, hc3, hd1, hd2]
        rfl

theorem to_bytes_scalar (P : platform) (units : List Nat) (h : ∀ u ∈ units, is_scalar_value u) :
    ∃ text, to_bytes P units = some text ∧ utf8_valid text = true := by
  induction units with
  | nil => exact ⟨[], rfl, rfl⟩
  | cons c cs ih =>
    obtain ⟨enc, henc, hvalid⟩ := utf8_valid_encode P c (h c (List.mem_cons_self c cs))
    obtain ⟨text, ht, hv⟩ := ih (fun u hu => h u (List.mem_cons_of_mem c hu))
    refine ⟨enc ++ text, ?_, ?_⟩
    · simp [to_bytes, henc, ht]
    · rw [hvalid, hv]

theorem utf8_encode_some_scalar (P : platform) (hP : P.codecvt_rejects_surrogates = true)
    (u : Nat) (enc : List Byte) (h : utf8_encode P u = some enc) : is_scalar_value u := by
  unfold utf8_encode at h
  unfold is_scalar_value
  rw [hP] at h
  simp only [Bool.true_and, decide_eq_true_eq] at h
  split_ifs at h <;> omega

theorem to_bytes_some_scalar (P : platform) (hP : P.codecvt_rejects_surrogates = true)
    (units : List Nat) (text : List Byte) (h : to_bytes P units = some text) :
    ∀ u ∈ units, is_scalar_value u := by
  induction units generalizing text with
  | nil => simp
  | cons c cs ih =>
    unfold to_bytes at h
    cases hc : utf8_encode P c with
    | none => rw [hc] at h; simp at h
    | some enc =>
      cases hcs : to_bytes P cs with
      | none => rw [hc, hcs] at h; simp at h
      | some rest =>
        intro u hu
        rcases List.mem_cons.mp hu with rfl | hu
        · exact utf8_encode_some_scalar P hP _ enc hc
        · exact ih rest hcs u hu

/-- C11 (as amended): the narrow constructor stores the bytes it is given without checking
them, so its text is well-formed UTF-8 whenever the bytes copied are; the wide constructor,
given code units that are all Unicode scalar values (below `0xD800`, or from `0xE000` to
`0x10FFFF`), produces a record whose text is well-formed UTF-8; and where the conversion
facet refuses surrogates, every record the wide constructor produces has well-formed
text. -/
theorem constructed_text_well_formed (P : platform) :
    (∀ (b : List Byte) (size : Nat) (t : STRING_TYPE) (s e : Int),
      utf8_valid (b.take size) = true →
      utf8_valid (get_string (extracted_string.from_chars b size t s e)) = true) ∧
    (∀ (units : List Nat) (size : Nat) (t : STRING_TYPE) (s e : Int),
      (∀ u ∈ units, is_scalar_value u) →
      ∃ r, extracted_string.from_wchars P units size t s e = some r ∧
        utf8_valid (get_string r) = true) ∧
    (P.codecvt_rejects_surrogates = true →
      ∀ (units : List Nat) (size : Nat) (t : STRING_TYPE) (s e : Int) (r : extracted_string),
        extracted_string.from_wchars P units size t s e = some r →
        utf8_valid (get_string r) = true) := by
  refine ⟨?_, ?_, ?_⟩
  · intro b size t s e h
    exact h
  · intro units size t s e h
    obtain ⟨text, ht, hv⟩ := to_bytes_scalar P (units.take (size / 2))
      (fun u hu => h u (List.mem_of_mem_take hu))
    refine ⟨⟨t, text, size, s, e⟩, ?_, hv⟩
    unfold extracted_string.from_wchars
    rw [ht]
  · intro hP units size t s e r hr
    unfold extracted_string.from_wchars at hr
    cases hto : to_bytes P (units.take (size / 2)) with
    | none => rw [hto] at hr; simp at hr
    | some text =>
      rw [hto] at hr
      simp only [Option.some.injEq] at hr
      obtain ⟨text2, ht2, hv⟩ := to_bytes_scalar P (units.take (size / 2))
        (to_bytes_some_scalar P hP _ text hto)
      rw [hto, Option.some.injEq] at ht2
      rw [← hr, get_string, ht2]
      exact hv

/-- C11 (witness): the bytes of `"té"` through the narrow constructor and the units of
`"t€"` through the wide one. -/
theorem constructed_text_well_formed_witness :
    utf8_valid (([0x74, 0xC3, 0xA9] : List Byte).take 3) = true ∧
    utf8_valid (get_string (extracted_string.from_chars [0x74, 0xC3, 0xA9] 3 .TYPE_UTF8 0 3))
      = true ∧
    (∀ u ∈ ([0x74, 0x20AC] : List Nat), is_scalar_value u) ∧
    (∃ r, extracted_string.from_wchars ⟨true, true⟩ [0x74, 0x20AC] 4 .TYPE_WIDE_STRING 0 4
        = some r ∧ utf8_valid (get_string r) = true) :=
  ⟨by decide,
    (constructed_text_well_formed ⟨true, true⟩).1 [0x74, 0xC3, 0xA9] 3 .TYPE_UTF8 0 3 (by decide),
    by decide,
    (constructed_text_well_formed ⟨true, true⟩).2.1 [0x74, 0x20AC] 4 .TYPE_WIDE_STRING 0 4
      (by decide)⟩

/-- C11 (counterexample): the narrow constructor given the single byte `0xFF` yields a record
whose text is that byte, which is not well-formed UTF-8; and where the conversion facet
does not refuse surrogates, the wide constructor given the unpaired surrogate `0xD800`
yields a record whose text `ED A0 80` is not well-formed UTF-8 either. -/
theorem constructed_text_ill_formed :
    get_string (extracted_string.from_chars [0xFF] 1 .TYPE_UTF8 0 1) = [0xFF] ∧
    utf8_valid (get_string (extracted_string.from_chars [0xFF] 1 .TYPE_UTF8 0 1)) = false ∧
    (extracted_string.from_wchars ⟨true, false⟩ [0xD800] 2 .TYPE_WIDE_STRING 0 2).map get_string
      = some [0xED, 0xA0, 0x80] ∧
    utf8_valid [0xED, 0xA0, 0x80] = false := by
  decide

/-! ## The default constructor, the type label and purity -/

/-- C12 (the code at the failing input): the default constructor builds `m_string` from the
null pointer, which yields no string, so no record is produced; the record the claim
describes (undetermined type, empty text, zero size and offsets) would score `0.0` and not
be interesting. -/
theorem default_constructor_yields_no_record {F : Type} [LinearOrderedField F] (exp : F → F)
    (P : platform) (m : string_model F) :
    string_from_c_str none = none ∧
    extracted_string.default_constructed = none ∧
    get_proba_interesting exp P m ⟨.TYPE_UNDETERMINED, [], 0, 0, 0⟩ = 0 ∧
    is_interesting exp P m ⟨.TYPE_UNDETERMINED, [], 0, 0, 0⟩ = false := by
  have h0 : get_proba_interesting exp P m ⟨.TYPE_UNDETERMINED, [], 0, 0, 0⟩ = 0 :=
    get_proba_interesting_short exp P m _ (by decide)
  refine ⟨rfl, rfl, h0, ?_⟩
  unfold is_interesting
  rw [h0]
  simp

/-- C13: `get_type_string` is determined by `get_type`: `TYPE_UTF8` gives `"UTF8"`,
`TYPE_WIDE_STRING` gives `"WIDE_STRING"`, `TYPE_UNDETERMINED` gives `"UNDETERMINED"`; the
three labels are pairwise different, so two records have the same label exactly when they
have the same type. -/
theorem get_type_string_identifies_type (self other : extracted_string) :
    get_type_string self
      = (match get_type self with
          | .TYPE_UTF8 => "UTF8"
          | .TYPE_WIDE_STRING => "WIDE_STRING"
          | .TYPE_UNDETERMINED => "UNDETERMINED") ∧
    ("UTF8" ≠ "WIDE_STRING" ∧ "UTF8" ≠ "UNDETERMINED" ∧ "WIDE_STRING" ≠ "UNDETERMINED") ∧
    (get_type_string self = get_type_string other ↔ get_type self = get_type other) := by
  refine ⟨?_, ⟨by decide, by decide, by decide⟩, ?_⟩
  · unfold get_type_string get_type
    cases self.m_type <;> rfl
  · unfold get_type_string get_type
    cases self.m_type <;> cases other.m_type <;> simp

/-- C14: two records with byte-identical text, scored against the same model, get the same
probability and the same classification, whatever their type, `size_in_bytes` and offsets;
and a call of either method leaves the record as it was. -/
theorem scoring_depends_on_text_only {F : Type} [LinearOrderedField F] (exp : F → F)
    (P : platform) (m : string_model F) (r1 r2 : extracted_string)
    (h : r1.m_string = r2.m_string) :
    get_proba_interesting exp P m r1 = get_proba_interesting exp P m r2 ∧
    is_interesting exp P m r1 = is_interesting exp P m r2 ∧
    (get_proba_interesting_call exp P m r1).1 = get_proba_interesting exp P m r1 ∧
    (get_proba_interesting_call exp P m r1).2 = r1 ∧
    (is_interesting_call exp P m r1).1 = is_interesting exp P m r1 ∧
    (is_interesting_call exp P m r1).2 = r1 := by
  have hp : get_proba_interesting exp P m r1 = get_proba_interesting exp P m r2 := by
    unfold get_proba_interesting
    rw [h]
  refine ⟨hp, ?_, ?_, ?_, ?_, ?_⟩
  · unfold is_interesting
    rw [hp]
  · simp only [get_proba_interesting_call]
  · simp only [get_proba_interesting_call]
  · unfold is_interesting_call get_proba_interesting_call is_interesting
    dsimp only
  · simp only [is_interesting_call, get_proba_interesting_call]

/-- C14 (witness): the text `"abcd"` held by a wide-string record of size 8 at offsets
7 to 15 scores as the UTF-8 record `abcd` of size 4 at offsets 100 to 104 does. -/
theorem scoring_depends_on_text_only_witness :
    (⟨.TYPE_WIDE_STRING, [0x61, 0x62, 0x63, 0x64], 8, 7, 15⟩ : extracted_string).m_string
      = abcd.m_string ∧
    get_proba_interesting Real.exp ⟨true, false⟩ (slot_model ℝ 0 1)
        ⟨.TYPE_WIDE_STRING, [0x61, 0x62, 0x63, 0x64], 8, 7, 15⟩
      = get_proba_interesting Real.exp ⟨true, false⟩ (slot_model ℝ 0 1) abcd :=
  ⟨rfl, (scoring_depends_on_text_only Real.exp ⟨true, false⟩ (slot_model ℝ 0 1)
    ⟨.TYPE_WIDE_STRING, [0x61, 0x62, 0x63, 0x64], 8, 7, 15⟩ abcd rfl).1⟩

/-! ## The weight indices -/

theorem byte_at_mem (str : List Byte) (i : Nat) (hi : i < str.length) : byte_at str i ∈ str := by
  unfold byte_at
  rw [List.getD_eq_getElem _ _ hi]
  exact List.getElem_mem hi

theorem position_reads_in_range (P : platform) (str : List Byte) (l : Int) (i : Nat)
    (h : byte_in_range (byte_at str i)) :
    position_reads P str l i
      = unigram_index (byte_at str i) ::
          (if (i : Int) + 1 < l ∧ byte_in_range (byte_at str (i + 1)) then
            [bigram_index (byte_at str i) (byte_at str (i + 1))] else []) := by
  unfold position_reads unigram_index bigram_index
  simp only [char_at_range_iff]
  rw [if_pos h, char_at_of_in_range P str i h]
  by_cases h1 : (i : Int) + 1 < l ∧ byte_in_range (byte_at str (i + 1))
  · rw [if_pos h1, if_pos h1, char_at_of_in_range P str (i + 1) h1.2]
  · rw [if_neg h1, if_neg h1]

theorem position_reads_out_of_range (P : platform) (str : List Byte) (l : Int) (i : Nat)
    (h : ¬ byte_in_range (byte_at str i)) :
    position_reads P str l i = [non_latin_index] := by
  unfold position_reads non_latin_index
  simp only [char_at_range_iff]
  rw [if_neg h]

theorem unigram_index_range (c : Byte) (h : byte_in_range c) :
    0 ≤ unigram_index c ∧ unigram_index c ≤ 117 := by
  unfold byte_in_range at h
  unfold unigram_index
  omega

theorem bigram_index_range (c d : Byte) (hc : byte_in_range c) (hd : byte_in_range d) :
    118 ≤ bigram_index c d ∧ bigram_index c d ≤ 118 + 118 * 118 - 1 := by
  unfold byte_in_range at hc hd
  unfold bigram_index
  omega

/-- C15: in the loop, a byte `c` in `[0x09,0x7E]` reads the unigram index `c - 0x09`, which
lies in `0..117` (`0x09` gives 0, `0x7E` gives 117), and, when the next byte `d` exists and
is in range too, the bigram index `118 + (c - 0x09) + 118*(d - 0x09)`, which lies in
`118 .. 118 + 118*118 - 1`; a byte out of range, such as `0x08` or `0x7F`, reads only the
non-Latin index and no unigram index. -/
theorem unigram_bigram_index_ranges {F : Type} [LinearOrderedField F] (P : platform)
    (m : string_model F) (str : List Byte) (l : Int) (st : score_state F) (i : Nat) :
    (byte_in_range (byte_at str i) →
      (loop_body P m str l st i).reads
        = st.reads ++ unigram_index (byte_at str i) ::
            (if (i : Int) + 1 < l ∧ byte_in_range (byte_at str (i + 1)) then
              [bigram_index (byte_at str i) (byte_at str (i + 1))] else [])) ∧
    (¬ byte_in_range (byte_at str i) →
      (loop_body P m str l st i).reads = st.reads ++ [non_latin_index]) ∧
    (∀ c : Byte, byte_in_range c → 0 ≤ unigram_index c ∧ unigram_index c ≤ 117) ∧
    unigram_index 0x09 = 0 ∧ unigram_index 0x7E = 117 ∧
    (∀ c d : Byte, byte_in_range c → byte_in_range d →
      118 ≤ bigram_index c d ∧ bigram_index c d ≤ 118 + 118 * 118 - 1) ∧
    ¬ byte_in_range 0x08 ∧ ¬ byte_in_range 0x7F := by
  refine ⟨?_, ?_, unigram_index_range, by decide, by decide, bigram_index_range,
    by decide, by decide⟩
  · intro h
    rw [loop_body_reads, position_reads_in_range P str l i h]
  · intro h
    rw [loop_body_reads, position_reads_out_of_range P str l i h]

/-- C15 (witness): position 0 of `"abcd"`: the unigram index of `'a'` and the bigram index
of `'a','b'` are read. -/
theorem unigram_bigram_index_ranges_witness :
    byte_in_range (byte_at abcd.m_string 0) ∧
    (loop_body ⟨true, false⟩ (slot_model ℚ 0 0) abcd.m_string 4 ⟨0, ∅, []⟩ 0).reads
      = [] ++ unigram_index (byte_at abcd.m_string 0) ::
          (if ((0 : Nat) : Int) + 1 < 4 ∧ byte_in_range (byte_at abcd.m_string (0 + 1)) then
            [bigram_index (byte_at abcd.m_string 0) (byte_at abcd.m_string (0 + 1))] else []) :=
  ⟨by decide,
    (unigram_bigram_index_ranges ⟨true, false⟩ (slot_model ℚ 0 0) abcd.m_string 4 ⟨0, ∅, []⟩
      0).1 (by decide)⟩

/-! ## Bigram terms and out-of-range bytes -/

section bigram

variable {F : Type} [LinearOrderedField F]

/-- The linear score when only the bigram slots carry a weight, the same on each. -/
theorem score_bigram_only (m : string_model F) (str : List Byte) (k : F) (hb : m.bias = 0)
    (hk : ∀ j : Int, 118 ≤ j → j ≤ 118 + 118 * 118 - 1 → m.weights j = k)
    (h0 : ∀ j : Int, j < 118 ∨ 118 + 118 * 118 - 1 < j → m.weights j = 0) :
    spec_linear_score (118 + 118 + 118 * 118) m str
      = (((Finset.range str.length).filter (fun i => i + 1 < str.length ∧
          byte_in_range (byte_at str i) ∧ byte_in_range (byte_at str (i + 1)))).card : F) * k := by
  unfold spec_linear_score
  have hu : ∑ i in (Finset.range str.length).filter (fun i => byte_in_range (byte_at str i)),
      m.weights (((byte_at str i).val : Int) - 0x9) = 0 := by
    apply Finset.sum_eq_zero
    intro i hi
    have h1 := (Finset.mem_filter.mp hi).2
    unfold byte_in_range at h1
    exact h0 _ (Or.inl (by omega))
  have hbi : ∑ i in (Finset.range str.length).filter (fun i => i + 1 < str.length ∧
        byte_in_range (byte_at str i) ∧ byte_in_range (byte_at str (i + 1))),
      m.weights (118 + (((byte_at str i).val : Int) - 0x9)
        + 118 * (((byte_at str (i + 1)).val : Int) - 0x9))
      = ∑ _i in (Finset.range str.length).filter (fun i => i + 1 < str.length ∧
        byte_in_range (byte_at str i) ∧ byte_in_range (byte_at str (i + 1))), k := by
    apply Finset.sum_congr rfl
    intro i hi
    obtain ⟨-, h1, h2⟩ := (Finset.mem_filter.mp hi).2
    unfold byte_in_range at h1 h2
    exact hk _ (by omega) (by omega)
  rw [hu, hbi, Finset.sum_const, nsmul_eq_mul, hb, h0 _ (Or.inr (by norm_num)),
    h0 _ (Or.inr (by norm_num)), h0 _ (Or.inr (by norm_num))]
  ring

theorem bigram_positions_all_in_range (str : List Byte) (hin : ∀ b ∈ str, byte_in_range b) :
    (Finset.range str.length).filter (fun i => i + 1 < str.length ∧
        byte_in_range (byte_at str i) ∧ byte_in_range (byte_at str (i + 1)))
      = Finset.range (str.length - 1) := by
  ext i
  simp only [Finset.mem_filter, Finset.mem_range]
  constructor
  · rintro ⟨-, h, -⟩
    omega
  · intro h
    exact ⟨by omega, by omega, hin _ (byte_at_mem str i (by omega)),
      hin _ (byte_at_mem str (i + 1) (by omega))⟩

theorem bigram_model_on_slots (k : F) (j : Int) (h1 : 118 ≤ j) (h2 : j ≤ 118 + 118 * 118 - 1) :
    (bigram_model F k).weights j = k := by
  unfold bigram_model
  simp only
  rw [if_pos ⟨h1, h2⟩]

theorem bigram_model_off_slots (k : F) (j : Int) (h : j < 118 ∨ 118 + 118 * 118 - 1 < j) :
    (bigram_model F k).weights j = 0 := by
  unfold bigram_model
  simp only
  rw [if_neg (by omega)]

theorem abcd_in_range : ∀ b ∈ abcd.m_string, byte_in_range b := by
  intro b hb
  simp only [abcd, List.mem_cons, List.mem_singleton, List.not_mem_nil, or_false] at hb
  unfold byte_in_range
  rcases hb with rfl | rfl | rfl | rfl <;> decide

end bigram

section non_latin

variable {F : Type} [LinearOrderedField F]

theorem loop_state_reads_out_of_range (P : platform) (m : string_model F) (str : List Byte)
    (l : Int) (hout : ∀ b ∈ str, ¬ byte_in_range b) (n : Nat) (hn : n ≤ str.length) :
    (loop_state P m str l n).reads = List.replicate n non_latin_index := by
  induction n with
  | zero => simp [loop_state_zero]
  | succ n ih =>
    rw [loop_state_succ, loop_body_reads, ih (by omega),
      position_reads_out_of_range P str l n (hout _ (byte_at_mem str n (by omega)))]
    exact (List.replicate_succ' n non_latin_index).symm

theorem filter_in_range_empty (str : List Byte) (hout : ∀ b ∈ str, ¬ byte_in_range b) :
    (Finset.range str.length).filter (fun i => byte_in_range (byte_at str i)) = ∅ := by
  apply Finset.filter_false_of_mem
  intro i hi
  exact hout _ (byte_at_mem str i (Finset.mem_range.mp hi))

theorem filter_bigram_empty (str : List Byte) (hout : ∀ b ∈ str, ¬ byte_in_range b) :
    (Finset.range str.length).filter (fun i => i + 1 < str.length ∧
        byte_in_range (byte_at str i) ∧ byte_in_range (byte_at str (i + 1))) = ∅ := by
  apply Finset.filter_false_of_mem
  intro i hi h
  exact hout _ (byte_at_mem str i (Finset.mem_range.mp hi)) h.2.1

/-- C17: for every text of length 4 to 16 made only of bytes outside `[0x09,0x7E]`, whether
`char` is signed or not, every position takes the non-Latin branch: the weights read are the
non-Latin weight once per byte, then the length and distinct-count weights; no index below
`118 + 118*118` (no unigram or bigram weight) is read; and if all weights at indices
`≥ 118 + 118*118` are zero, the linear score equals the bias. -/
theorem out_of_range_bytes_take_non_latin_branch (exp : F → F) (P : platform)
    (m : string_model F) (self : extracted_string)
    (h4 : 4 ≤ self.m_string.length) (h16 : self.m_string.length ≤ 16)
    (hout : ∀ b ∈ self.m_string, ¬ byte_in_range b) :
    weight_reads P m self
      = List.replicate self.m_string.length non_latin_index ++ [length_index, distinct_index] ∧
    (∀ k ∈ weight_reads P m self, 118 + 118 * 118 ≤ k) ∧
    ((∀ k : Int, 118 + 118 * 118 ≤ k → m.weights k = 0) →
      (score_features P m self.m_string (to_int self.m_string.length)).score = m.bias ∧
      get_proba_interesting exp P m self = 1 / (1 + exp (-m.bias))) := by
  have hl : to_int self.m_string.length = (self.m_string.length : Int) :=
    to_int_of_lt _ (by omega)
  have hreads : weight_reads P m self
      = List.replicate self.m_string.length non_latin_index
        ++ [length_index, distinct_index] := by
    rw [weight_reads_in_model P m self h4 h16]
    unfold score_features add_weight_times
    simp only [Int.toNat_ofNat,
      loop_state_reads_out_of_range P m _ _ hout _ (le_refl _), List.append_assoc,
      List.singleton_append]
    rfl
  refine ⟨hreads, ?_, ?_⟩
  · intro k hk
    rw [hreads, List.mem_append] at hk
    rcases hk with hk | hk
    · rw [List.eq_of_mem_replicate hk]
      decide
    · simp only [List.mem_cons, List.mem_singleton, List.not_mem_nil, or_false] at hk
      rcases hk with rfl | rfl <;> decide
  · intro hz
    have hs : spec_linear_score (118 + 118 + 118 * 118) m self.m_string = m.bias := by
      unfold spec_linear_score
      rw [filter_in_range_empty _ hout, filter_bigram_empty _ hout, hz _ (by norm_num),
        hz _ (by norm_num), hz _ (by norm_num)]
      simp
    refine ⟨?_, ?_⟩
    · rw [hl, score_features_score, hs]
    · rw [get_proba_interesting_in_model exp P m self h4 h16, hs]

end non_latin

/-- C17 (witness): five bytes `0x80`, `char` signed, unigram weight 9 at index 0. -/
theorem out_of_range_bytes_take_non_latin_branch_witness :
    4 ≤ five_high_bytes.m_string.length ∧ five_high_bytes.m_string.length ≤ 16 ∧
    weight_reads ⟨true, false⟩ (slot_model ℝ 0 9) five_high_bytes
      = List.replicate five_high_bytes.m_string.length non_latin_index
        ++ [length_index, distinct_index] ∧
    get_proba_interesting Real.exp ⟨true, false⟩ (slot_model ℝ 0 9) five_high_bytes
      = 1 / (1 + Real.exp (-(slot_model ℝ 0 9).bias)) :=
  ⟨by decide, by decide,
    (out_of_range_bytes_take_non_latin_branch Real.exp ⟨true, false⟩ (slot_model ℝ 0 9)
      five_high_bytes (by decide) (by decide) five_high_bytes_out_of_range).1,
    ((out_of_range_bytes_take_non_latin_branch Real.exp ⟨true, false⟩ (slot_model ℝ 0 9)
      five_high_bytes (by decide) (by decide) five_high_bytes_out_of_range).2.2
      (fun k hk => by
        simp only [slot_model]
        rw [if_neg (by omega)])).2⟩

/-! ## The unit count of the wide constructor -/

theorem from_wchars_eq_map (P : platform) (units : List Nat) (b : Nat) (t : STRING_TYPE)
    (s e : Int) :
    extracted_string.from_wchars P units b t s e
      = (to_bytes P (units.take (b / 2))).map
          (fun text => ({ m_type := t, m_string := text, m_size_in_bytes := b,
                          m_offset_start := s, m_offset_end := e } : extracted_string)) := by
  unfold extracted_string.from_wchars
  cases to_bytes P (units.take (b / 2)) <;> rfl

/-- C18: for every wide-source construction with supplied byte length `b`, even or odd, the
text is the transcoding of the first `b/2` code units of the buffer (rounded down) and
nothing else, and `size_in_bytes` is stored as `b`; for odd `b` the outcome is the one for
`b - 1` with `size_in_bytes = b`, so the odd length raises no error of its own, the
trailing byte is not represented in the text, and `b = 2 * (b/2) + 1`. -/
theorem wide_construction_unit_count (P : platform) (units : List Nat) (b : Nat)
    (t : STRING_TYPE) (s e : Int) :
    extracted_string.from_wchars P units b t s e
      = (to_bytes P (units.take (b / 2))).map
          (fun text => ({ m_type := t, m_string := text, m_size_in_bytes := b,
                          m_offset_start := s, m_offset_end := e } : extracted_string)) ∧
    (b / 2 ≤ units.length → (units.take (b / 2)).length = b / 2) ∧
    (∀ r, extracted_string.from_wchars P units b t s e = some r → get_size_in_bytes r = b) ∧
    (∀ other : List Nat, other.take (b / 2) = units.take (b / 2) →
      extracted_string.from_wchars P other b t s e
        = extracted_string.from_wchars P units b t s e) ∧
    (b % 2 = 1 →
      b = 2 * (b / 2) + 1 ∧
      extracted_string.from_wchars P units b t s e
        = (extracted_string.from_wchars P units (b - 1) t s e).map
            (fun r => { r with m_size_in_bytes := b })) := by
  refine ⟨from_wchars_eq_map P units b t s e, ?_, ?_, ?_, ?_⟩
  · intro h
    rw [List.length_take]
    omega
  · intro r hr
    rw [from_wchars_eq_map] at hr
    cases hto : to_bytes P (units.take (b / 2)) with
    | none => rw [hto] at hr; simp at hr
    | some text =>
      rw [hto] at hr
      simp only [Option.map_some', Option.some.injEq] at hr
      rw [← hr]
      rfl
  · intro other h
    rw [from_wchars_eq_map, from_wchars_eq_map, h]
  · intro hodd
    refine ⟨by omega, ?_⟩
    have hdiv : (b - 1) / 2 = b / 2 := by omega
    rw [from_wchars_eq_map, from_wchars_eq_map, hdiv]
    cases to_bytes P (units.take (b / 2)) <;> rfl

/-- C18 (witness): the units `'t','e','s'` with byte length 5: two units are transcoded, the
third is not, and the size stored is 5. -/
theorem wide_construction_unit_count_witness :
    5 % 2 = 1 ∧
    extracted_string.from_wchars ⟨true, false⟩ [0x74, 0x65, 0x73] 5 .TYPE_WIDE_STRING 0 5
      = some { m_type := .TYPE_WIDE_STRING, m_string := [0x74, 0x65], m_size_in_bytes := 5,
               m_offset_start := 0, m_offset_end := 5 } ∧
    extracted_string.from_wchars ⟨true, false⟩ [0x74, 0x65, 0x73] 5 .TYPE_WIDE_STRING 0 5
      = (extracted_string.from_wchars ⟨true, false⟩ [0x74, 0x65, 0x73] (5 - 1)
          .TYPE_WIDE_STRING 0 5).map (fun r => { r with m_size_in_bytes := 5 }) :=
  ⟨by decide, by decide,
    ((wide_construction_unit_count ⟨true, false⟩ [0x74, 0x65, 0x73] 5 .TYPE_WIDE_STRING 0
      5).2.2.2.2 (by decide)).2⟩

/-! ## The length guards -/

theorem weight_reads_long {F : Type} [LinearOrderedField F] (P : platform) (m : string_model F)
    (self : extracted_string) (h : 16 < self.m_string.length)
    (hmax : self.m_string.length < 2147483648) :
    weight_reads P m self = [] := by
  have hl : to_int self.m_string.length = (self.m_string.length : Int) :=
    to_int_of_lt _ hmax
  unfold weight_reads
  simp only [hl]
  rw [if_pos (by omega)]

/-! ## The layout of the weight table -/

theorem mem_weight_reads_cases {F : Type} [LinearOrderedField F] (P : platform)
    (m : string_model F) (self : extracted_string)
    (h4 : 4 ≤ self.m_string.length) (h16 : self.m_string.length ≤ 16) (k : Int)
    (hk : k ∈ weight_reads P m self) :
    (∃ i, i < self.m_string.length ∧ byte_in_range (byte_at self.m_string i) ∧
      k = unigram_index (byte_at self.m_string i)) ∨
    (∃ i, i + 1 < self.m_string.length ∧ byte_in_range (byte_at self.m_string i) ∧
      byte_in_range (byte_at self.m_string (i + 1)) ∧
      k = bigram_index (byte_at self.m_string i) (byte_at self.m_string (i + 1))) ∨
    k = non_latin_index ∨ k = length_index ∨ k = distinct_index := by
  rw [weight_reads_in_model P m self h4 h16, mem_score_features_reads] at hk
  rcases hk with ⟨i, hi, hik⟩ | hk | hk
  · rw [Int.toNat_ofNat] at hi
    by_cases hin : byte_in_range (byte_at self.m_string i)
    · rw [position_reads_in_range P _ _ i hin, List.mem_cons] at hik
      rcases hik with hik | hik
      · exact Or.inl ⟨i, hi, hin, hik⟩
      · split_ifs at hik with hnext
        · rw [List.mem_singleton] at hik
          exact Or.inr (Or.inl ⟨i, by omega, hin, hnext.2, hik⟩)
        · simp at hik
    · rw [position_reads_out_of_range P _ _ i hin, List.mem_singleton] at hik
      exact Or.inr (Or.inr (Or.inl hik))
  · exact Or.inr (Or.inr (Or.inr (Or.inl hk)))
  · exact Or.inr (Or.inr (Or.inr (Or.inr hk)))

theorem bigram_index_injective (a b c d : Byte) (ha : byte_in_range a) (_hb : byte_in_range b)
    (hc : byte_in_range c) (_hd : byte_in_range d) (h : bigram_index a b = bigram_index c d) :
    a = c ∧ b = d := by
  unfold byte_in_range at ha hc
  unfold bigram_index at h
  exact ⟨Fin.ext (by omega), Fin.ext (by omega)⟩

/-- C20: every index scoring reads is a unigram index, a bigram index or one of the three
scalar indices (length, non-Latin count, distinct count); over bytes and byte pairs in
`[0x09,0x7E]` these are pairwise distinct, the bigram index is injective on ordered pairs
(and the unigram index on bytes), and the three scalar indices are consecutive, in the
order length, non-Latin count, distinct count, above every bigram index. -/
theorem weight_slots_not_shared {F : Type} [LinearOrderedField F] (P : platform)
    (m : string_model F) :
    (∀ self : extracted_string, 4 ≤ self.m_string.length → self.m_string.length ≤ 16 →
      ∀ k ∈ weight_reads P m self,
        (∃ i, i < self.m_string.length ∧ byte_in_range (byte_at self.m_string i) ∧
          k = unigram_index (byte_at self.m_string i)) ∨
        (∃ i, i + 1 < self.m_string.length ∧ byte_in_range (byte_at self.m_string i) ∧
          byte_in_range (byte_at self.m_string (i + 1)) ∧
          k = bigram_index (byte_at self.m_string i) (byte_at self.m_string (i + 1))) ∨
        k = non_latin_index ∨ k = length_index ∨ k = distinct_index) ∧
    (∀ a b c : Byte, byte_in_range a → byte_in_range b → byte_in_range c →
      unigram_index a ≠ bigram_index b c) ∧
    (∀ a : Byte, byte_in_range a →
      unigram_index a ≠ length_index ∧ unigram_index a ≠ non_latin_index ∧
        unigram_index a ≠ distinct_index) ∧
    (∀ a b : Byte, byte_in_range a → byte_in_range b →
      bigram_index a b ≠ length_index ∧ bigram_index a b ≠ non_latin_index ∧
        bigram_index a b ≠ distinct_index) ∧
    (length_index ≠ non_latin_index ∧ length_index ≠ distinct_index ∧
      non_latin_index ≠ distinct_index) ∧
    (∀ a b c d : Byte, byte_in_range a → byte_in_range b → byte_in_range c →
      byte_in_range d → bigram_index a b = bigram_index c d → a = c ∧ b = d) ∧
    (∀ a b : Byte, unigram_index a = unigram_index b → a = b) ∧
    (non_latin_index = length_index + 1 ∧ distinct_index = length_index + 2) ∧
    (∀ a b : Byte, byte_in_range a → byte_in_range b → bigram_index a b < length_index) := by
  refine ⟨fun self h4 h16 k hk => mem_weight_reads_cases P m self h4 h16 k hk, ?_, ?_, ?_,
    ⟨by decide, by decide, by decide⟩, bigram_index_injective, ?_, ⟨by decide, by decide⟩, ?_⟩
  · intro a b c ha hb hc
    have h1 := unigram_index_range a ha
    have h2 := bigram_index_range b c hb hc
    omega
  · intro a ha
    have h1 := unigram_index_range a ha
    unfold length_index non_latin_index distinct_index
    omega
  · intro a b ha hb
    have h2 := bigram_index_range a b ha hb
    unfold length_index non_latin_index distinct_index
    omega
  · intro a b h
    unfold unigram_index at h
    exact Fin.ext (by omega)
  · intro a b ha hb
    have h2 := bigram_index_range a b ha hb
    unfold length_index
    omega

/-- C20 (witness): the index `118+118+118*118` read for `"abcd"` is the length index. -/
theorem weight_slots_not_shared_witness :
    4 ≤ abcd.m_string.length ∧ abcd.m_string.length ≤ 16 ∧
    length_index ∈ weight_reads ⟨true, false⟩ (slot_model ℚ 0 0) abcd ∧
    ((∃ i, i < abcd.m_string.length ∧ byte_in_range (byte_at abcd.m_string i) ∧
        length_index = unigram_index (byte_at abcd.m_string i)) ∨
      (∃ i, i + 1 < abcd.m_string.length ∧ byte_in_range (byte_at abcd.m_string i) ∧
        byte_in_range (byte_at abcd.m_string (i + 1)) ∧
        length_index = bigram_index (byte_at abcd.m_string i) (byte_at abcd.m_string (i + 1))) ∨
      length_index = non_latin_index ∨ length_index = length_index ∨
        length_index = distinct_index) :=
  ⟨by decide, by decide, length_slot_mem_weight_reads _ _ abcd (by decide) (by decide),
    (weight_slots_not_shared ⟨true, false⟩ (slot_model ℚ 0 0)).1 abcd (by decide) (by decide)
      length_index (length_slot_mem_weight_reads _ _ abcd (by decide) (by decide))⟩

/-! ## The loop over an arbitrary float arithmetic -/

section float_loop

variable {F : Type}

theorem loop_body_float_reads (A : float_arith F) (P : platform) (m : string_model F)
    (str : List Byte) (l : Int) (st : score_state F) (i : Nat) :
    (loop_body_float A P m str l st i).reads = st.reads ++ position_reads P str l i := by
  unfold loop_body_float position_reads add_weight_float
  split_ifs <;> simp

theorem loop_body_float_cc (A : float_arith F) (P : platform) (m : string_model F)
    (str : List Byte) (l : Int) (st : score_state F) (i : Nat) :
    (loop_body_float A P m str l st i).cc = insert (char_at P str i) st.cc := by
  unfold loop_body_float add_weight_float
  split_ifs <;> rfl

theorem loop_body_float_score (A : float_arith F) (P : platform) (m : string_model F)
    (str : List Byte) (st : score_state F) (i : Nat) :
    (loop_body_float A P m str (str.length : Int) st i).score
      = position_update A m str st.score i := by
  have hlt : ((i : Int) + 1 < (str.length : Int)) ↔ i + 1 < str.length := by omega
  unfold loop_body_float position_update add_weight_float unigram_index bigram_index
    non_latin_index
  simp only [char_at_range_iff, hlt]
  by_cases h : byte_in_range (byte_at str i)
  · by_cases h1 : byte_in_range (byte_at str (i + 1))
    · by_cases h2 : i + 1 < str.length
      · simp [h, h1, h2, char_at_of_in_range P str i h, char_at_of_in_range P str (i + 1) h1]
      · simp [h, h1, h2, char_at_of_in_range P str i h]
    · simp [h, h1, char_at_of_in_range P str i h]
  · simp [h]

theorem loop_state_float_zero (A : float_arith F) (P : platform) (m : string_model F)
    (str : List Byte) (l : Int) :
    loop_state_float A P m str l 0 = { score := m.bias, cc := ∅, reads := [] } := by
  simp [loop_state_float]

theorem loop_state_float_succ (A : float_arith F) (P : platform) (m : string_model F)
    (str : List Byte) (l : Int) (n : Nat) :
    loop_state_float A P m str l (n + 1)
      = loop_body_float A P m str l (loop_state_float A P m str l n) n := by
  simp [loop_state_float, List.range_succ, List.foldl_append]

theorem loop_state_float_score (A : float_arith F) (P : platform) (m : string_model F)
    (str : List Byte) (n : Nat) :
    (loop_state_float A P m str (str.length : Int) n).score
      = (List.range n).foldl (position_update A m str) m.bias := by
  induction n with
  | zero => simp [loop_state_float_zero]
  | succ n ih =>
    rw [loop_state_float_succ, loop_body_float_score, ih, List.range_succ, List.foldl_append]
    rfl

theorem loop_state_float_cc (A : float_arith F) (P : platform) (m : string_model F)
    (str : List Byte) (l : Int) (n : Nat) :
    (loop_state_float A P m str l n).cc = (Finset.range n).image (char_at P str) := by
  induction n with
  | zero => simp [loop_state_float_zero]
  | succ n ih =>
    rw [loop_state_float_succ, loop_body_float_cc, ih, Finset.range_succ, Finset.image_insert]

theorem mem_loop_state_float_reads (A : float_arith F) (P : platform) (m : string_model F)
    (str : List Byte) (l : Int) (n : Nat) (k : Int) :
    k ∈ (loop_state_float A P m str l n).reads ↔ ∃ i, i < n ∧ k ∈ position_reads P str l i := by
  induction n with
  | zero => simp [loop_state_float_zero]
  | succ n ih =>
    rw [loop_state_float_succ, loop_body_float_reads, List.mem_append, ih]
    constructor
    · rintro (⟨i, hi, hk⟩ | hk)
      · exact ⟨i, Nat.lt_succ_of_lt hi, hk⟩
      · exact ⟨n, Nat.lt_succ_self n, hk⟩
    · rintro ⟨i, hi, hk⟩
      rcases Nat.lt_succ_iff_lt_or_eq.mp hi with h | h
      · exact Or.inl ⟨i, h, hk⟩
      · exact Or.inr (h ▸ hk)

theorem score_features_float_score (A : float_arith F) (P : platform) (m : string_model F)
    (str : List Byte) :
    (score_features_float A P m str (str.length : Int)).score = ordered_score A m str := by
  unfold score_features_float add_weight_times_float ordered_score length_index distinct_index
  simp only [Int.toNat_ofNat, loop_state_float_score, loop_state_float_cc, card_image_char_at]

theorem mem_score_features_float_reads (A : float_arith F) (P : platform) (m : string_model F)
    (str : List Byte) (l : Int) (k : Int) :
    k ∈ (score_features_float A P m str l).reads ↔
      (∃ i, i < l.toNat ∧ k ∈ position_reads P str l i)
        ∨ k = 118 + 118 + 118 * 118 ∨ k = 118 + 118 + 118 * 118 + 2 := by
  unfold score_features_float add_weight_times_float
  simp only [List.mem_append, List.mem_singleton, mem_loop_state_float_reads, or_assoc]

theorem get_proba_interesting_float_in_model (A : float_arith F) (P : platform)
    (m : string_model F) (self : extracted_string)
    (h4 : 4 ≤ self.m_string.length) (h16 : self.m_string.length ≤ 16) :
    get_proba_interesting_float A P m self
      = A.div A.one (A.add A.one (A.exp (A.neg (ordered_score A m self.m_string)))) := by
  have hl : to_int self.m_string.length = (self.m_string.length : Int) :=
    to_int_of_lt _ (by omega)
  unfold get_proba_interesting_float
  simp only [hl]
  rw [if_neg (by omega), if_neg (by omega), score_features_float_score]

theorem get_proba_interesting_float_short (A : float_arith F) (P : platform)
    (m : string_model F) (self : extracted_string) (h : self.m_string.length < 4) :
    get_proba_interesting_float A P m self = A.zero := by
  have hl : to_int self.m_string.length = (self.m_string.length : Int) :=
    to_int_of_lt _ (by omega)
  unfold get_proba_interesting_float
  simp only [hl]
  rw [if_neg (by omega), if_pos (by omega)]

theorem weight_reads_float_in_model (A : float_arith F) (P : platform) (m : string_model F)
    (self : extracted_string) (h4 : 4 ≤ self.m_string.length) (h16 : self.m_string.length ≤ 16) :
    weight_reads_float A P m self
      = (score_features_float A P m self.m_string (self.m_string.length : Int)).reads := by
  have hl : to_int self.m_string.length = (self.m_string.length : Int) :=
    to_int_of_lt _ (by omega)
  unfold weight_reads_float
  simp only [hl]
  rw [if_neg (by omega), if_neg (by omega)]

end float_loop

/-! ## Exact arithmetic as one float arithmetic -/

section exact

variable {F : Type} [LinearOrderedField F]

theorem loop_body_float_field (exp : F → F) (P : platform) (m : string_model F)
    (str : List Byte) (l : Int) (st : score_state F) (i : Nat) :
    loop_body_float (field_arith exp) P m str l st i = loop_body P m str l st i := by
  unfold loop_body_float loop_body add_weight_float add_weight field_arith
  rfl

theorem loop_state_float_field (exp : F → F) (P : platform) (m : string_model F)
    (str : List Byte) (l : Int) (n : Nat) :
    loop_state_float (field_arith exp) P m str l n = loop_state P m str l n := by
  have h : loop_body_float (field_arith exp) P m str l = loop_body P m str l := by
    funext st i
    exact loop_body_float_field exp P m str l st i
  unfold loop_state_float loop_state
  rw [h]

theorem score_features_float_field (exp : F → F) (P : platform) (m : string_model F)
    (str : List Byte) (l : Int) :
    score_features_float (field_arith exp) P m str l = score_features P m str l := by
  unfold score_features_float score_features add_weight_times_float add_weight_times
  simp only [loop_state_float_field]
  rfl

/-- In exact arithmetic the float version of `get_proba_interesting` is the one over the
ordered field. -/
theorem get_proba_interesting_float_field (exp : F → F) (P : platform) (m : string_model F)
    (self : extracted_string) :
    get_proba_interesting_float (field_arith exp) P m self
      = get_proba_interesting exp P m self := by
  unfold get_proba_interesting_float get_proba_interesting
  simp only [score_features_float_field]
  rfl

theorem weight_reads_float_field (exp : F → F) (P : platform) (m : string_model F)
    (self : extracted_string) :
    weight_reads_float (field_arith exp) P m self = weight_reads P m self := by
  unfold weight_reads_float weight_reads
  simp only [score_features_float_field]

/-- In exact arithmetic the order of the additions does not matter: the score accumulated
in the order of the code is the sum of its terms. -/
theorem ordered_score_field (exp : F → F) (P : platform) (m : string_model F)
    (str : List Byte) :
    ordered_score (field_arith exp) m str = spec_linear_score (118 + 118 + 118 * 118) m str := by
  rw [← score_features_float_score (field_arith exp) P m str, score_features_float_field,
    score_features_score]

end exact

/-! ## Rounding to binary32 -/

theorem round_half_even_of_lt (n : ℚ) (k : ℤ) (h1 : (k : ℚ) - 1 / 2 < n) (h2 : n < k + 1 / 2) :
    round_half_even n = k := by
  unfold round_half_even
  rcases lt_or_le n (k : ℚ) with h | h
  · have hf : ⌊n⌋ = k - 1 := by
      rw [Int.floor_eq_iff]
      push_cast
      constructor <;> linarith
    rw [hf]
    push_cast
    rw [if_neg (by linarith), if_pos (by linarith)]
    ring
  · have hf : ⌊n⌋ = k := by
      rw [Int.floor_eq_iff]
      constructor <;> linarith
    rw [hf, if_pos (by linarith)]

theorem round_half_even_tie (k : ℤ) :
    round_half_even ((k : ℚ) + 1 / 2) = if k % 2 = 0 then k else k + 1 := by
  unfold round_half_even
  have hf : ⌊(k : ℚ) + 1 / 2⌋ = k := by
    rw [Int.floor_eq_iff]
    constructor <;> linarith
  rw [hf, if_neg (by linarith), if_neg (by linarith)]

theorem round_half_even_int (k : ℤ) : round_half_even (k : ℚ) = k :=
  round_half_even_of_lt _ k (by linarith) (by linarith)

theorem floor_le_round_half_even (n : ℚ) : ⌊n⌋ ≤ round_half_even n := by
  unfold round_half_even
  split_ifs <;> omega

theorem round_half_even_le_ceil (n : ℚ) : round_half_even n ≤ ⌈n⌉ := by
  unfold round_half_even
  have h1 : ⌊n⌋ ≤ ⌈n⌉ := Int.floor_le_ceil n
  have hfl : (⌊n⌋ : ℚ) ≤ n := Int.floor_le n
  have key : (0 : ℚ) < n - ⌊n⌋ → ⌊n⌋ + 1 ≤ ⌈n⌉ := by
    intro h
    have h2 : (⌊n⌋ : ℚ) < ⌈n⌉ := lt_of_lt_of_le (by linarith) (Int.le_ceil n)
    exact_mod_cast h2
  split_ifs with ha hb hc
  · exact h1
  · exact key (by linarith)
  · exact h1
  · exact key (by linarith)

theorem quantum_pos (x : ℚ) : 0 < quantum x := by
  unfold quantum
  positivity

theorem quantum_normal (x : ℚ) (e : ℤ) (hlo : (2 : ℚ) ^ e ≤ x) (hhi : x < 2 ^ (e + 1))
    (he : -126 ≤ e) : quantum x = 2 ^ (e - 23) := by
  have hx : 0 < x := lt_of_lt_of_le (by positivity) hlo
  have h1 : e ≤ Int.log 2 x := (Int.zpow_le_iff_le_log (by norm_num) hx).mp (by exact_mod_cast hlo)
  have h2 : Int.log 2 x < e + 1 := (Int.lt_zpow_iff_log_lt (by norm_num) hx).mp (by exact_mod_cast hhi)
  have h3 : Int.log 2 x = e := by omega
  unfold quantum
  rw [h3, max_eq_left he]

theorem quantum_subnormal (x : ℚ) (hx : 0 < x) (hhi : x < 2 ^ (-126 : ℤ)) :
    quantum x = 2 ^ (-149 : ℤ) := by
  have h3 : Int.log 2 x ≤ -126 := by
    have h2 : Int.log 2 x < -126 :=
      (Int.lt_zpow_iff_log_lt (by norm_num) hx).mp (by exact_mod_cast hhi)
    omega
  unfold quantum
  rw [max_eq_right h3]
  norm_num

theorem round_magnitude_zero : round_magnitude 0 = 0 := by
  unfold round_magnitude
  rw [zero_div, show ((0 : ℚ)) = ((0 : ℤ) : ℚ) by norm_num, round_half_even_int]
  simp

theorem round_magnitude_nonneg (x : ℚ) (hx : 0 ≤ x) : 0 ≤ round_magnitude x := by
  unfold round_magnitude
  have hq := quantum_pos x
  have h1 : (0 : ℤ) ≤ ⌊x / quantum x⌋ := Int.floor_nonneg.mpr (div_nonneg hx hq.le)
  have h2 := floor_le_round_half_even (x / quantum x)
  have h3 : (0 : ℚ) ≤ (round_half_even (x / quantum x) : ℚ) := by exact_mod_cast le_trans h1 h2
  positivity

theorem round_magnitude_normal (x : ℚ) (e k : ℤ) (hlo : (2 : ℚ) ^ e ≤ x) (hhi : x < 2 ^ (e + 1))
    (he : -126 ≤ e) (hk : round_half_even (x / 2 ^ (e - 23)) = k) :
    round_magnitude x = k * 2 ^ (e - 23) := by
  unfold round_magnitude
  rw [quantum_normal x e hlo hhi he, hk]

theorem round_magnitude_le_pow (x : ℚ) (j : ℤ) (hj : -126 ≤ j) (hx0 : 0 ≤ x)
    (hx : x ≤ (2 : ℚ) ^ j) : round_magnitude x ≤ (2 : ℚ) ^ j := by
  rcases eq_or_lt_of_le hx0 with h0 | hpos
  · rw [← h0, round_magnitude_zero]
    positivity
  · have hlt : x < (2 : ℚ) ^ (j + 1) :=
      lt_of_le_of_lt hx (zpow_lt_zpow_right₀ (by norm_num) (by omega))
    have hlog : Int.log 2 x < j + 1 :=
      (Int.lt_zpow_iff_log_lt (by norm_num) hpos).mp (by exact_mod_cast hlt)
    obtain ⟨e, he⟩ : ∃ e, e = max (Int.log 2 x) (-126) := ⟨_, rfl⟩
    have hej : e ≤ j := by
      rw [he]
      exact max_le (by omega) hj
    have hq : quantum x = 2 ^ (e - 23) := by
      unfold quantum
      rw [he]
    unfold round_magnitude
    rw [hq]
    have hqpos : (0 : ℚ) < 2 ^ (e - 23) := by positivity
    have hN : (((2 : ℤ) ^ (j - e + 23).toNat : ℤ) : ℚ) * 2 ^ (e - 23) = 2 ^ j := by
      push_cast
      rw [← zpow_natCast, ← zpow_add₀ (by norm_num : (2 : ℚ) ≠ 0)]
      congr 1
      rw [Int.toNat_of_nonneg (by omega)]
      omega
    have hdiv : x / 2 ^ (e - 23) ≤ (((2 : ℤ) ^ (j - e + 23).toNat : ℤ) : ℚ) := by
      rw [div_le_iff₀ hqpos, hN]
      exact hx
    have hceil : ⌈x / 2 ^ (e - 23)⌉ ≤ (2 : ℤ) ^ (j - e + 23).toNat := Int.ceil_le.mpr hdiv
    have hr : round_half_even (x / 2 ^ (e - 23)) ≤ (2 : ℤ) ^ (j - e + 23).toNat :=
      le_trans (round_half_even_le_ceil _) hceil
    have hr' : (round_half_even (x / 2 ^ (e - 23)) : ℚ)
        ≤ (((2 : ℤ) ^ (j - e + 23).toNat : ℤ) : ℚ) := by exact_mod_cast hr
    calc (round_half_even (x / 2 ^ (e - 23)) : ℚ) * 2 ^ (e - 23)
        ≤ (((2 : ℤ) ^ (j - e + 23).toNat : ℤ) : ℚ) * 2 ^ (e - 23) :=
          mul_le_mul_of_nonneg_right hr' hqpos.le
      _ = 2 ^ j := hN

theorem round32_eval (negative : Bool) (x : ℚ) (e k : ℤ) (y : ℚ) (hlo : (2 : ℚ) ^ e ≤ x)
    (hhi : x < 2 ^ (e + 1)) (he : -126 ≤ e) (hk : round_half_even (x / 2 ^ (e - 23)) = k)
    (hy : (k : ℚ) * 2 ^ (e - 23) = y) (hfin : y < 2 ^ 128) :
    round32 negative x = .fin negative y := by
  unfold round32
  rw [round_magnitude_normal x e k hlo hhi he hk, hy, if_neg (not_le.mpr hfin)]

theorem round32_zero (negative : Bool) : round32 negative 0 = .fin negative 0 := by
  unfold round32
  rw [round_magnitude_zero, if_neg (by norm_num)]

theorem round32_of_le (negative : Bool) (x : ℚ) (j : ℤ) (hj : -126 ≤ j) (hj128 : j < 128)
    (hx0 : 0 ≤ x) (hx : x ≤ (2 : ℚ) ^ j) :
    round32 negative x = .fin negative (round_magnitude x) := by
  unfold round32
  have h := round_magnitude_le_pow x j hj hx0 hx
  have h2 : (2 : ℚ) ^ j < 2 ^ (128 : ℤ) := zpow_lt_zpow_right₀ (by norm_num) hj128
  rw [if_neg]
  rw [not_le]
  calc round_magnitude x ≤ 2 ^ j := h
    _ < 2 ^ (128 : ℤ) := h2
    _ = 2 ^ 128 := by norm_num

/-! ## Evaluations in binary32 -/

theorem round32_two_pow_24_add_one :
    round32 false 16777217 = .fin false 16777216 :=
  round32_eval false 16777217 24 8388608 16777216 (by norm_num) (by norm_num) (by norm_num)
    (by
      have h : (16777217 : ℚ) / 2 ^ ((24 : ℤ) - 23) = ((8388608 : ℤ) : ℚ) + 1 / 2 := by norm_num
      rw [h, round_half_even_tie]
      norm_num)
    (by norm_num) (by norm_num)

theorem round32_two : round32 false 2 = .fin false 2 :=
  round32_eval false 2 1 8388608 2 (by norm_num) (by norm_num) (by norm_num)
    (by
      have h : (2 : ℚ) / 2 ^ ((1 : ℤ) - 23) = ((8388608 : ℤ) : ℚ) := by norm_num
      rw [h, round_half_even_int])
    (by norm_num) (by norm_num)

theorem round32_half : round32 false (1 / 2) = .fin false (1 / 2) :=
  round32_eval false (1 / 2) (-1) 8388608 (1 / 2) (by norm_num) (by norm_num) (by norm_num)
    (by
      have h : (1 / 2 : ℚ) / 2 ^ ((-1 : ℤ) - 23) = ((8388608 : ℤ) : ℚ) := by norm_num
      rw [h, round_half_even_int])
    (by norm_num) (by norm_num)

/-- The last step `1.0f / (1.0f + exp(-score))` at a score that is a zero: exactly `0.5`. -/
theorem logistic32_zero (libm : ℚ → binary32) (s : Bool) :
    binary32.div (.fin false 1)
      (binary32.add (.fin false 1) (binary32.exp libm (binary32.neg (.fin s 0))))
      = .fin false (1 / 2) := by
  have h1 : binary32.exp libm (binary32.neg (.fin s 0)) = .fin false 1 := by
    simp [binary32.exp, binary32.neg]
  have h2 : binary32.add (.fin false 1) (.fin false 1) = .fin false 2 := by
    simp only [binary32.add, signed]
    norm_num
    exact round32_two
  have h3 : binary32.div (.fin false 1) (.fin false 2) = .fin false (1 / 2) := by
    simp only [binary32.div]
    norm_num
    exact round32_half
  rw [h1, h2, h3]

/-- The score of `"abcd"` written out: the nine weights added in the loop, then the length
and distinct-count terms. -/
theorem ordered_score_abcd {F : Type} (A : float_arith F) (m : string_model F) :
    ordered_score A m abcd.m_string
      = A.add (A.add (A.add (A.add (A.add (A.add (A.add (A.add (A.add m.bias
          (m.weights 88)) (m.weights 10708)) (m.weights 89)) (m.weights 10827))
          (m.weights 90)) (m.weights 10946)) (m.weights 91))
          (A.mul (m.weights 14160) (A.of_int 4))) (A.mul (m.weights 14162) (A.of_nat 4)) := by
  have hr : List.range abcd.m_string.length = [0, 1, 2, 3] := by decide
  have hc : abcd.m_string.toFinset.card = 4 := by decide
  have hl : ((abcd.m_string.length : Nat) : Int) = 4 := by decide
  have p0 : ∀ s : F, position_update A m abcd.m_string s 0
      = A.add (A.add s (m.weights 88)) (m.weights 10708) := by
    intro s
    unfold position_update
    rw [if_pos (by decide), if_pos (by decide)]
    rfl
  have p1 : ∀ s : F, position_update A m abcd.m_string s 1
      = A.add (A.add s (m.weights 89)) (m.weights 10827) := by
    intro s
    unfold position_update
    rw [if_pos (by decide), if_pos (by decide)]
    rfl
  have p2 : ∀ s : F, position_update A m abcd.m_string s 2
      = A.add (A.add s (m.weights 90)) (m.weights 10946) := by
    intro s
    unfold position_update
    rw [if_pos (by decide), if_pos (by decide)]
    rfl
  have p3 : ∀ s : F, position_update A m abcd.m_string s 3 = A.add s (m.weights 91) := by
    intro s
    unfold position_update
    rw [if_pos (by decide), if_neg (by decide)]
    rfl
  unfold ordered_score
  rw [hr, hc, hl]
  simp only [List.foldl_cons, List.foldl_nil, p0, p1, p2, p3]
  rfl

theorem add_fin_fin (s t : Bool) (x y : ℚ) :
    binary32.add (.fin s x) (.fin t y)
      = if y = 0 then (if x = 0 then .fin (s && t) 0 else .fin s x)
        else if x = 0 then .fin t y
        else if signed s x + signed t y = 0 then .fin false 0
        else round32 (decide (signed s x + signed t y < 0)) |signed s x + signed t y| := rfl

theorem mul_fin_fin (s t : Bool) (x y : ℚ) :
    binary32.mul (.fin s x) (.fin t y) = round32 (xor s t) (x * y) := rfl

/-- Adding two positive finite values: the rounded sum. -/
theorem add_pos_pos (x y : ℚ) (hx : 0 < x) (hy : 0 < y) :
    binary32.add (.fin false x) (.fin false y) = round32 false (x + y) := by
  rw [add_fin_fin, if_neg hy.ne', if_neg hx.ne']
  have h : signed false x + signed false y = x + y := by simp [signed]
  rw [h, if_neg (by linarith), abs_of_pos (by linarith)]
  have h2 : decide (x + y < 0) = false := decide_eq_false (by linarith)
  rw [h2]

theorem add_zero_zero : binary32.add (.fin false 0) (.fin false 0) = .fin false 0 := by
  rw [add_fin_fin, if_pos rfl, if_pos rfl]
  rfl

/-- The conversion to `float` of an `int` that is not negative. -/
theorem of_int_natCast (libm : ℚ → binary32) (n : Nat) :
    (binary32_arith libm).of_int (n : Int) = round32 false (n : ℚ) := by
  have h1 : decide (((n : Int)) < 0) = false := decide_eq_false (by omega)
  have h2 : |(((n : Int) : ℚ))| = (n : ℚ) := by
    rw [abs_of_nonneg (by positivity)]
    norm_cast
  show round32 (decide (((n : Int)) < 0)) |(((n : Int) : ℚ))| = round32 false (n : ℚ)
  rw [h1, h2]

/-- A zero weight times the conversion of a count of at most 16 is `+0`. -/
theorem mul_zero_round32 (n : Nat) (hn : n ≤ 16) :
    binary32.mul (.fin false 0) (round32 false (n : ℚ)) = .fin false 0 := by
  have h16 : (n : ℚ) ≤ (2 : ℚ) ^ (4 : ℤ) := by
    have h : (n : ℚ) ≤ 16 := by exact_mod_cast hn
    have h2 : (2 : ℚ) ^ (4 : ℤ) = 16 := by norm_num
    rw [h2]
    exact h
  rw [round32_of_le false n 4 (by norm_num) (by norm_num) (by positivity) h16, mul_fin_fin,
    zero_mul]
  exact round32_zero _

theorem cancel_model32_score (libm : ℚ → binary32) :
    ordered_score (binary32_arith libm) cancel_model32 abcd.m_string = .fin false 0 := by
  rw [ordered_score_abcd]
  have h1 : binary32.add (.fin false 16777216) (.fin false 1) = .fin false 16777216 := by
    rw [add_pos_pos _ _ (by norm_num) (by norm_num)]
    have h : (16777216 : ℚ) + 1 = 16777217 := by norm_num
    rw [h]
    exact round32_two_pow_24_add_one
  have h2 : binary32.add (.fin false 16777216) (.fin true 16777216) = .fin false 0 := by
    rw [add_fin_fin, if_neg (by norm_num), if_neg (by norm_num), if_pos (by norm_num [signed])]
  have hi : (binary32_arith libm).of_int 4 = round32 false ((4 : Nat) : ℚ) :=
    of_int_natCast libm 4
  have hn : (binary32_arith libm).of_nat 4 = round32 false ((4 : Nat) : ℚ) := rfl
  rw [hi, hn]
  show binary32.add (binary32.add (binary32.add (binary32.add (binary32.add (binary32.add
    (binary32.add (binary32.add (binary32.add (.fin false 16777216) (.fin false 1))
      (.fin true 16777216)) (.fin false 0)) (.fin false 0)) (.fin false 0)) (.fin false 0))
      (.fin false 0)) (binary32.mul (.fin false 0) (round32 false ((4 : Nat) : ℚ))))
      (binary32.mul (.fin false 0) (round32 false ((4 : Nat) : ℚ))) = .fin false 0
  rw [h1, h2, mul_zero_round32 4 (by norm_num)]
  simp only [add_zero_zero]

/-! ## The probability and the accumulated score -/

theorem spec_linear_score_base_congr {F : Type} [LinearOrderedField F] (b1 b2 : Int)
    (m : string_model F) (str : List Byte) (h0 : m.weights b1 = m.weights b2)
    (h1 : m.weights (b1 + 1) = m.weights (b2 + 1))
    (h2 : m.weights (b1 + 2) = m.weights (b2 + 2)) :
    spec_linear_score b1 m str = spec_linear_score b2 m str := by
  unfold spec_linear_score
  rw [h0, h1, h2]

theorem cancel_model_sum (base : Int) (hb : 118 + 118 * 118 ≤ base) :
    spec_linear_score base (cancel_model ℝ) abcd.m_string = 1 := by
  have h : spec_linear_score base (cancel_model ℝ) abcd.m_string
      = spec_linear_score (118 + 118 + 118 * 118) (cancel_model ℝ) abcd.m_string := by
    apply spec_linear_score_base_congr <;>
    · simp only [cancel_model]
      rw [if_neg (by omega), if_neg (by omega), if_neg (by omega), if_neg (by omega)]
  rw [h, ← ordered_score_field Real.exp ⟨true, false⟩, ordered_score_abcd]
  simp only [field_arith, cancel_model]
  norm_num

/-- C1 (as amended): for every text of byte length `L` with `4 ≤ L ≤ 16`, every model and
every float arithmetic, `get_proba_interesting` returns `1.0f / (1.0f + exp(-s))`, where
`s` is accumulated in that arithmetic in the order of the code: from the bias, for each
position in turn the unigram weight and then the bigram weight (byte, and next byte, in
`[0x09,0x7E]`) or else the weight at `118+118+118*118+1`; then the weight at
`118+118+118*118` times the length, then the weight at `118+118+118*118+2` times the number
of distinct byte values. -/
theorem proba_is_logistic_of_ordered_score {F : Type} (A : float_arith F) (P : platform)
    (m : string_model F) (self : extracted_string)
    (h4 : 4 ≤ self.m_string.length) (h16 : self.m_string.length ≤ 16) :
    get_proba_interesting_float A P m self
      = A.div A.one (A.add A.one (A.exp (A.neg (ordered_score A m self.m_string)))) :=
  get_proba_interesting_float_in_model A P m self h4 h16

/-- C1 (witness): `"abcd"` in binary32, whatever the library `exp`. -/
theorem proba_is_logistic_of_ordered_score_witness :
    4 ≤ abcd.m_string.length ∧ abcd.m_string.length ≤ 16 ∧
    ∀ libm : ℚ → binary32,
      get_proba_interesting_float (binary32_arith libm) ⟨true, false⟩ cancel_model32 abcd
        = binary32.div (.fin false 1) (binary32.add (.fin false 1) (binary32.exp libm
            (binary32.neg (ordered_score (binary32_arith libm) cancel_model32 abcd.m_string)))) :=
  ⟨by decide, by decide, fun libm =>
    proba_is_logistic_of_ordered_score (binary32_arith libm) ⟨true, false⟩ cancel_model32 abcd
      (by decide) (by decide)⟩

/-- C1 (counterexample): two inputs at which the code does not return `1/(1+exp(-s))` for
the `s` of the claim. With bias 0 and the single weight 1 at index `118+118+118*118` the
text `"abcd"` scores `1/(1+exp(-4))`, the claim's `s` being 0. And in binary32, with bias
`2^24`, the weight 1 for `'a'` and the weight `-2^24` for the pair `'a','b'`, the code adds
`2^24 + 1`, which rounds to `2^24`, then `-2^24`: its score is 0 and it returns exactly
`0.5`, while the claim's `s` is 1, whichever indices the scalar weights have. -/
theorem proba_differs_from_spec_formula :
    get_proba_interesting Real.exp ⟨true, false⟩ (slot_model ℝ (118 + 118 + 118 * 118) 1) abcd
      ≠ 1 / (1 + Real.exp (-(spec_linear_score (118 + 118 * 118)
          (slot_model ℝ (118 + 118 + 118 * 118) 1) abcd.m_string))) ∧
    (∀ libm : ℚ → binary32,
      ordered_score (binary32_arith libm) cancel_model32 abcd.m_string = .fin false 0 ∧
      get_proba_interesting_float (binary32_arith libm) ⟨true, false⟩ cancel_model32 abcd
        = .fin false (1 / 2)) ∧
    spec_linear_score (118 + 118 * 118) (cancel_model ℝ) abcd.m_string = 1 ∧
    spec_linear_score (118 + 118 + 118 * 118) (cancel_model ℝ) abcd.m_string = 1 ∧
    (1 : ℝ) / (1 + Real.exp (-1)) ≠ 1 / 2 := by
  refine ⟨abcd_proba_ne_spec_layout, ?_, cancel_model_sum _ (by norm_num),
    cancel_model_sum _ (by norm_num), logistic_ne_half 1 (by norm_num)⟩
  intro libm
  refine ⟨cancel_model32_score libm, ?_⟩
  rw [get_proba_interesting_float_in_model _ _ _ _ (by decide) (by decide),
    cancel_model32_score]
  exact logistic32_zero libm false

/-! ## The range of the probability in binary32 -/

/-- A binary32 value that is `+inf` or finite, not negative and of sign `+`. -/
theorem add_nonneg_shape (x : binary32) (q : ℚ) (hq : 0 ≤ q)
    (hx : x = .inf false ∨ ∃ r, 0 ≤ r ∧ x = .fin false r) :
    binary32.add x (.fin false q) = .inf false ∨
      ∃ r, 0 ≤ r ∧ binary32.add x (.fin false q) = .fin false r := by
  rcases hx with rfl | ⟨r, hr, rfl⟩
  · exact Or.inl rfl
  · rw [add_fin_fin]
    split_ifs with h1 h2 h3 h4
    · exact Or.inr ⟨0, le_refl 0, rfl⟩
    · exact Or.inr ⟨r, hr, rfl⟩
    · exact Or.inr ⟨q, hq, rfl⟩
    · exact Or.inr ⟨0, le_refl 0, rfl⟩
    · have hs : signed false r + signed false q = r + q := by simp [signed]
      have hd : decide (signed false r + signed false q < 0) = false :=
        decide_eq_false (by rw [hs]; linarith)
      rw [hd]
      unfold round32
      split_ifs
      · exact Or.inl rfl
      · exact Or.inr ⟨_, round_magnitude_nonneg _ (abs_nonneg _), rfl⟩

theorem iterate_add_nonneg_shape (q : ℚ) (hq : 0 ≤ q) (n : Nat) :
    (fun s => binary32.add s (.fin false q))^[n] (.fin false 0) = .inf false ∨
      ∃ r, 0 ≤ r ∧ (fun s => binary32.add s (.fin false q))^[n] (.fin false 0) = .fin false r := by
  induction n with
  | zero => exact Or.inr ⟨0, le_refl 0, rfl⟩
  | succ n ih =>
    rw [Function.iterate_succ_apply']
    exact add_nonneg_shape _ q hq ih

theorem add_pos_zero_of_shape (x : binary32)
    (hx : x = .inf false ∨ ∃ r, 0 ≤ r ∧ x = .fin false r) :
    binary32.add x (.fin false 0) = x := by
  rcases hx with rfl | ⟨r, -, rfl⟩
  · rfl
  · rw [add_fin_fin, if_pos rfl]
    split_ifs with h
    · rw [h]
      rfl
    · rfl

theorem bigram_model_float_on_slots {F : Type} (A : float_arith F) (k : F) (j : Int)
    (h1 : 118 ≤ j) (h2 : j ≤ 118 + 118 * 118 - 1) : (bigram_model_float A k).weights j = k :=
  if_pos ⟨h1, h2⟩

theorem bigram_model_float_off_slots {F : Type} (A : float_arith F) (k : F) (j : Int)
    (h : j < 118 ∨ 118 + 118 * 118 - 1 < j) : (bigram_model_float A k).weights j = A.zero :=
  if_neg (by omega)

/-- The loop under the bigram model: after `n` positions the score is `k` added once for
each bigram position below `n`, provided adding the zero weight leaves each such partial sum
unchanged. -/
theorem foldl_position_update_bigram {F : Type} (A : float_arith F) (str : List Byte) (k : F)
    (hzero : ∀ n, n ≤ (bigram_positions str).card →
      A.add ((fun s => A.add s k)^[n] A.zero) A.zero = (fun s => A.add s k)^[n] A.zero)
    (n : Nat) (hn : n ≤ str.length) :
    (List.range n).foldl (position_update A (bigram_model_float A k) str) A.zero
      = (fun s => A.add s k)^[((Finset.range n).filter (fun i => i + 1 < str.length ∧
          byte_in_range (byte_at str i) ∧ byte_in_range (byte_at str (i + 1)))).card]
          A.zero := by
  induction n with
  | zero => rfl
  | succ n ih =>
    have hcard : ((Finset.range n).filter (fun i => i + 1 < str.length ∧
        byte_in_range (byte_at str i) ∧ byte_in_range (byte_at str (i + 1)))).card
        ≤ (bigram_positions str).card :=
      Finset.card_le_card (Finset.filter_subset_filter _
        (Finset.range_mono (by omega)))
    have hz := hzero _ hcard
    rw [List.range_succ, List.foldl_append, ih (by omega), Finset.range_succ,
      Finset.filter_insert]
    simp only [List.foldl_cons, List.foldl_nil]
    unfold position_update
    by_cases hc : byte_in_range (byte_at str n)
    · rw [if_pos hc, bigram_model_float_off_slots A k _
        (Or.inl (by have := unigram_index_range _ hc; omega))]
      by_cases hd : n + 1 < str.length ∧ byte_in_range (byte_at str (n + 1))
      · rw [if_pos hd, if_pos ⟨hd.1, hc, hd.2⟩, hz,
          bigram_model_float_on_slots A k _ (bigram_index_range _ _ hc hd.2).1
            (bigram_index_range _ _ hc hd.2).2,
          Finset.card_insert_of_not_mem (by simp), Function.iterate_succ_apply']
      · rw [if_neg hd, if_neg (fun h => hd ⟨h.1, h.2.2⟩), hz]
    · rw [if_neg hc, if_neg (fun h => hc h.2.1),
        bigram_model_float_off_slots A k _ (Or.inr (by unfold non_latin_index; omega)), hz]

theorem ordered_score_bigram_model {F : Type} (A : float_arith F) (str : List Byte) (k : F)
    (hzero : ∀ n, n ≤ (bigram_positions str).card →
      A.add ((fun s => A.add s k)^[n] A.zero) A.zero = (fun s => A.add s k)^[n] A.zero)
    (hlen : A.mul A.zero (A.of_int (str.length : Int)) = A.zero)
    (hdistinct : A.mul A.zero (A.of_nat str.toFinset.card) = A.zero) :
    ordered_score A (bigram_model_float A k) str
      = (fun s => A.add s k)^[(bigram_positions str).card] A.zero := by
  unfold ordered_score
  have hb : (bigram_model_float A k).bias = A.zero := rfl
  rw [hb, foldl_position_update_bigram A str k hzero _ (le_refl _),
    bigram_model_float_off_slots A k _ (Or.inr (by unfold length_index; omega)),
    bigram_model_float_off_slots A k _ (Or.inr (by unfold distinct_index; omega)),
    hlen, hdistinct]
  have hz := hzero _ (le_refl _)
  unfold bigram_positions at hz ⊢
  rw [hz, hz]

theorem bigram_positions_card_all_in_range (str : List Byte)
    (hin : ∀ b ∈ str, byte_in_range b) : (bigram_positions str).card = str.length - 1 := by
  unfold bigram_positions
  rw [bigram_positions_all_in_range str hin, Finset.card_range]

theorem bigram_slot_unigram_index (c : Byte) (h : byte_in_range c) :
    bigram_slot (unigram_index c) = false := by
  have := unigram_index_range c h
  unfold bigram_slot
  exact decide_eq_false (by omega)

theorem bigram_slot_bigram_index (c d : Byte) (hc : byte_in_range c) (hd : byte_in_range d) :
    bigram_slot (bigram_index c d) = true := by
  have := bigram_index_range c d hc hd
  unfold bigram_slot
  exact decide_eq_true ⟨this.1, this.2⟩

/-- The loop reads one bigram slot for each bigram position below `n`, and no other. -/
theorem loop_state_float_bigram_reads {F : Type} (A : float_arith F) (P : platform)
    (m : string_model F) (str : List Byte) (n : Nat) :
    (loop_state_float A P m str (str.length : Int) n).reads.countP bigram_slot
      = ((Finset.range n).filter (fun i => i + 1 < str.length ∧
          byte_in_range (byte_at str i) ∧ byte_in_range (byte_at str (i + 1)))).card := by
  induction n with
  | zero => simp [loop_state_float_zero]
  | succ n ih =>
    rw [loop_state_float_succ, loop_body_float_reads, List.countP_append, ih, Finset.range_succ,
      Finset.filter_insert]
    by_cases hc : byte_in_range (byte_at str n)
    · rw [position_reads_in_range P str _ n hc]
      by_cases hd : n + 1 < str.length ∧ byte_in_range (byte_at str (n + 1))
      · have hd2 : ((n : Int) + 1 < (str.length : Int) ∧ byte_in_range (byte_at str (n + 1))) :=
          ⟨by omega, hd.2⟩
        rw [if_pos hd2, if_pos ⟨hd.1, hc, hd.2⟩, Finset.card_insert_of_not_mem (by simp)]
        simp [List.countP_cons, bigram_slot_unigram_index _ hc,
          bigram_slot_bigram_index _ _ hc hd.2]
      · have hd2 : ¬ ((n : Int) + 1 < (str.length : Int) ∧
            byte_in_range (byte_at str (n + 1))) := fun h => hd ⟨by omega, h.2⟩
        rw [if_neg hd2, if_neg (fun h => hd ⟨h.1, h.2.2⟩)]
        simp [List.countP_cons, bigram_slot_unigram_index _ hc]
    · rw [position_reads_out_of_range P str _ n hc, if_neg (fun h => hc h.2.1)]
      have h : bigram_slot non_latin_index = false := by decide
      simp [List.countP_cons, h]

theorem weight_reads_float_bigram_count {F : Type} (A : float_arith F) (P : platform)
    (m : string_model F) (self : extracted_string)
    (h4 : 4 ≤ self.m_string.length) (h16 : self.m_string.length ≤ 16) :
    (weight_reads_float A P m self).countP bigram_slot
      = (bigram_positions self.m_string).card := by
  rw [weight_reads_float_in_model A P m self h4 h16]
  unfold score_features_float add_weight_times_float
  have h1 : bigram_slot (118 + 118 + 118 * 118) = false := by decide
  have h2 : bigram_slot (118 + 118 + 118 * 118 + 2) = false := by decide
  simp only [Int.toNat_ofNat, List.countP_append, List.countP_cons, List.countP_nil, h1, h2,
    loop_state_float_bigram_reads]
  rfl

theorem last_position_reads_no_bigram (P : platform) (str : List Byte) (h : 0 < str.length) :
    ∀ j ∈ position_reads P str (str.length : Int) (str.length - 1), bigram_slot j = false := by
  intro j hj
  by_cases hc : byte_in_range (byte_at str (str.length - 1))
  · rw [position_reads_in_range P str _ _ hc, if_neg (fun h' => by omega)] at hj
    rw [List.mem_singleton] at hj
    rw [hj]
    exact bigram_slot_unigram_index _ hc
  · rw [position_reads_out_of_range P str _ _ hc, List.mem_singleton] at hj
    rw [hj]
    decide

theorem abcdefg_in_range : ∀ b ∈ abcdefg.m_string, byte_in_range b := by
  intro b hb
  simp only [abcdefg, List.mem_cons, List.mem_singleton, List.not_mem_nil, or_false] at hb
  unfold byte_in_range
  rcases hb with rfl | rfl | rfl | rfl | rfl | rfl | rfl <;> decide

theorem round32_six : round32 false 6 = .fin false 6 :=
  round32_eval false 6 2 12582912 6 (by norm_num) (by norm_num) (by norm_num)
    (by
      have h : (6 : ℚ) / 2 ^ ((2 : ℤ) - 23) = ((12582912 : ℤ) : ℚ) := by norm_num
      rw [h, round_half_even_int])
    (by norm_num) (by norm_num)

/-- In binary32, `6.0f * (1 + 2^-23)` is `6 + 2^-20`. -/
theorem mul_six_succ_one32 :
    binary32.mul (.fin false (8388609 / 8388608)) (round32 false 6)
      = .fin false (6291457 / 1048576) := by
  rw [round32_six, mul_fin_fin]
  exact round32_eval false _ 2 12582914 _ (by norm_num) (by norm_num) (by norm_num)
    (by
      have h : ((8388609 : ℚ) / 8388608 * 6) / 2 ^ ((2 : ℤ) - 23)
          = ((12582913 : ℤ) : ℚ) + 1 / 2 := by norm_num
      rw [h, round_half_even_tie]
      norm_num)
    (by norm_num) (by norm_num)

/-- In binary32, `1 + 2^-23` added six times to `+0` gives `6 + 2^-21`. -/
theorem iterate_add_succ_one32 :
    (fun s => binary32.add s (.fin false (8388609 / 8388608)))^[6] (.fin false 0)
      = .fin false (12582913 / 2097152) := by
  have hit : ∀ (f : binary32 → binary32) (x : binary32),
      f^[6] x = f (f (f (f (f (f x))))) := by
    intro f x
    simp only [Function.iterate_succ, Function.iterate_zero, Function.comp_apply, id_eq]
  have s1 : binary32.add (.fin false 0) (.fin false (8388609 / 8388608))
      = .fin false (8388609 / 8388608) := by
    rw [add_fin_fin, if_neg (by norm_num), if_pos rfl]
  have s2 : binary32.add (.fin false (8388609 / 8388608)) (.fin false (8388609 / 8388608))
      = .fin false (8388609 / 4194304) := by
    rw [add_pos_pos _ _ (by norm_num) (by norm_num)]
    exact round32_eval false _ 1 8388609 _ (by norm_num) (by norm_num) (by norm_num)
      (by
        have h : ((8388609 : ℚ) / 8388608 + 8388609 / 8388608) / 2 ^ ((1 : ℤ) - 23)
            = ((8388609 : ℤ) : ℚ) := by norm_num
        rw [h, round_half_even_int])
      (by norm_num) (by norm_num)
  have s3 : binary32.add (.fin false (8388609 / 4194304)) (.fin false (8388609 / 8388608))
      = .fin false (6291457 / 2097152) := by
    rw [add_pos_pos _ _ (by norm_num) (by norm_num)]
    exact round32_eval false _ 1 12582914 _ (by norm_num) (by norm_num) (by norm_num)
      (by
        have h : ((8388609 : ℚ) / 4194304 + 8388609 / 8388608) / 2 ^ ((1 : ℤ) - 23)
            = ((12582913 : ℤ) : ℚ) + 1 / 2 := by norm_num
        rw [h, round_half_even_tie]
        norm_num)
      (by norm_num) (by norm_num)
  have s4 : binary32.add (.fin false (6291457 / 2097152)) (.fin false (8388609 / 8388608))
      = .fin false (8388609 / 2097152) := by
    rw [add_pos_pos _ _ (by norm_num) (by norm_num)]
    exact round32_eval false _ 2 8388609 _ (by norm_num) (by norm_num) (by norm_num)
      (round_half_even_of_lt _ _ (by norm_num) (by norm_num))
      (by norm_num) (by norm_num)
  have s5 : binary32.add (.fin false (8388609 / 2097152)) (.fin false (8388609 / 8388608))
      = .fin false (10485761 / 2097152) := by
    rw [add_pos_pos _ _ (by norm_num) (by norm_num)]
    exact round32_eval false _ 2 10485761 _ (by norm_num) (by norm_num) (by norm_num)
      (round_half_even_of_lt _ _ (by norm_num) (by norm_num))
      (by norm_num) (by norm_num)
  have s6 : binary32.add (.fin false (10485761 / 2097152)) (.fin false (8388609 / 8388608))
      = .fin false (12582913 / 2097152) := by
    rw [add_pos_pos _ _ (by norm_num) (by norm_num)]
    exact round32_eval false _ 2 12582913 _ (by norm_num) (by norm_num) (by norm_num)
      (round_half_even_of_lt _ _ (by norm_num) (by norm_num))
      (by norm_num) (by norm_num)
  rw [hit, s1, s2, s3, s4, s5, s6]

/-- The hypotheses on zero of the bigram statement hold in binary32 for a weight that is
finite and not negative. -/
theorem binary32_add_zero_iterate (libm : ℚ → binary32) (q : ℚ) (hq : 0 ≤ q) (n : Nat) :
    (binary32_arith libm).add
        ((fun s => (binary32_arith libm).add s (.fin false q))^[n] (binary32_arith libm).zero)
        (binary32_arith libm).zero
      = (fun s => (binary32_arith libm).add s (.fin false q))^[n] (binary32_arith libm).zero :=
  add_pos_zero_of_shape _ (iterate_add_nonneg_shape q hq n)

theorem binary32_mul_zero_of_int (libm : ℚ → binary32) (n : Nat) (hn : n ≤ 16) :
    (binary32_arith libm).mul (binary32_arith libm).zero ((binary32_arith libm).of_int (n : Int))
      = (binary32_arith libm).zero := by
  rw [of_int_natCast]
  exact mul_zero_round32 n hn

theorem binary32_mul_zero_of_nat (libm : ℚ → binary32) (n : Nat) (hn : n ≤ 16) :
    (binary32_arith libm).mul (binary32_arith libm).zero ((binary32_arith libm).of_nat n)
      = (binary32_arith libm).zero :=
  mul_zero_round32 n hn

/-- C16 (as amended): bigram terms look one position forward only. For every text of length
`L`, `4 ≤ L ≤ 16`, and every model, a call of `get_proba_interesting` reads a bigram slot
(an index in `118 .. 118 + 118*118 - 1`) exactly once for each position `i` with `i + 1 < L`
whose byte and next byte both lie in `[0x09,0x7E]`; the last position reads none; a text
made only of in-range bytes gets exactly `L - 1` such reads. With the `float` zero as bias, a
constant `k` on every bigram slot and the `float` zero elsewhere, the linear score is `k`
added to zero once for each of these positions, in `float` arithmetic (not `k` times their
number), provided that adding the zero weight leaves each such partial sum unchanged and
that the zero weight times the length and times the distinct count is zero. -/
theorem bigram_terms_added_one_forward {F : Type} (A : float_arith F) (P : platform)
    (m : string_model F) (self : extracted_string) (k : F)
    (h4 : 4 ≤ self.m_string.length) (h16 : self.m_string.length ≤ 16)
    (hzero : ∀ n, n ≤ (bigram_positions self.m_string).card →
      A.add ((fun s => A.add s k)^[n] A.zero) A.zero = (fun s => A.add s k)^[n] A.zero)
    (hlen : A.mul A.zero (A.of_int (self.m_string.length : Int)) = A.zero)
    (hdistinct : A.mul A.zero (A.of_nat self.m_string.toFinset.card) = A.zero) :
    (weight_reads_float A P m self).countP bigram_slot = (bigram_positions self.m_string).card ∧
    (∀ j ∈ position_reads P self.m_string (to_int self.m_string.length)
        (self.m_string.length - 1), bigram_slot j = false) ∧
    ((∀ b ∈ self.m_string, byte_in_range b) →
      (weight_reads_float A P m self).countP bigram_slot = self.m_string.length - 1) ∧
    (score_features_float A P (bigram_model_float A k) self.m_string
        (to_int self.m_string.length)).score
      = (fun s => A.add s k)^[(bigram_positions self.m_string).card] A.zero ∧
    ((∀ b ∈ self.m_string, byte_in_range b) →
      (score_features_float A P (bigram_model_float A k) self.m_string
          (to_int self.m_string.length)).score
        = (fun s => A.add s k)^[self.m_string.length - 1] A.zero) := by
  have hl : to_int self.m_string.length = (self.m_string.length : Int) :=
    to_int_of_lt _ (by omega)
  have hcount := weight_reads_float_bigram_count A P m self h4 h16
  have hscore : (score_features_float A P (bigram_model_float A k) self.m_string
      (to_int self.m_string.length)).score
      = (fun s => A.add s k)^[(bigram_positions self.m_string).card] A.zero := by
    rw [hl, score_features_float_score]
    exact ordered_score_bigram_model A self.m_string k hzero hlen hdistinct
  refine ⟨hcount, ?_, ?_, hscore, ?_⟩
  · rw [hl]
    exact last_position_reads_no_bigram P self.m_string (by omega)
  · intro hin
    rw [hcount, bigram_positions_card_all_in_range _ hin]
  · intro hin
    rw [hscore, bigram_positions_card_all_in_range _ hin]

/-- C16 (witness): `"abcd"` in binary32 with the weight `1.0` on every bigram slot. -/
theorem bigram_terms_added_one_forward_witness :
    4 ≤ abcd.m_string.length ∧ abcd.m_string.length ≤ 16 ∧
    (weight_reads_float (binary32_arith (fun _ => .nan)) ⟨true, false⟩
        (bigram_model_float (binary32_arith (fun _ => .nan)) (.fin false 1)) abcd).countP
        bigram_slot = (bigram_positions abcd.m_string).card ∧
    (score_features_float (binary32_arith (fun _ => .nan)) ⟨true, false⟩
        (bigram_model_float (binary32_arith (fun _ => .nan)) (.fin false 1)) abcd.m_string
        (to_int abcd.m_string.length)).score
      = (fun s => (binary32_arith (fun _ => .nan)).add s (.fin false 1))^[
          (bigram_positions abcd.m_string).card] (binary32_arith (fun _ => .nan)).zero :=
  ⟨by decide, by decide,
    (bigram_terms_added_one_forward (binary32_arith (fun _ => .nan)) ⟨true, false⟩
      (bigram_model_float (binary32_arith (fun _ => .nan)) (.fin false 1)) abcd (.fin false 1)
      (by decide) (by decide)
      (fun n _ => binary32_add_zero_iterate _ 1 zero_le_one n)
      (binary32_mul_zero_of_int _ 4 (by decide))
      (binary32_mul_zero_of_nat _ _ (le_trans (List.toFinset_card_le _) (by decide)))).1,
    (bigram_terms_added_one_forward (binary32_arith (fun _ => .nan)) ⟨true, false⟩
      (bigram_model_float (binary32_arith (fun _ => .nan)) (.fin false 1)) abcd (.fin false 1)
      (by decide) (by decide)
      (fun n _ => binary32_add_zero_iterate _ 1 zero_le_one n)
      (binary32_mul_zero_of_int _ 4 (by decide))
      (binary32_mul_zero_of_nat _ _
        (le_trans (List.toFinset_card_le _) (by decide)))).2.2.2.1⟩

/-- C16 (counterexample): the seven in-range bytes `"abcdefg"` with the binary32 weight
`k = 1 + 2^-23` on every bigram slot. There are six bigram positions; the code adds `k` six
times and ends at `6 + 2^-21`, while `k` times six is `6 + 2^-20` computed in binary32 and
`6 + 3 * 2^-22` exactly: the linear score is neither. -/
theorem bigram_score_is_not_a_product :
    (bigram_positions abcdefg.m_string).card = 6 ∧
    (∀ (libm : ℚ → binary32) (P : platform),
      (score_features_float (binary32_arith libm) P
          (bigram_model_float (binary32_arith libm) (.fin false (8388609 / 8388608)))
          abcdefg.m_string (to_int abcdefg.m_string.length)).score
        = .fin false (12582913 / 2097152)) ∧
    binary32.mul (.fin false (8388609 / 8388608)) (round32 false 6)
      = .fin false (6291457 / 1048576) ∧
    (12582913 / 2097152 : ℚ) ≠ 6291457 / 1048576 ∧
    (12582913 / 2097152 : ℚ) ≠ 8388609 / 8388608 * 6 := by
  have hcard : (bigram_positions abcdefg.m_string).card = 6 :=
    bigram_positions_card_all_in_range _ abcdefg_in_range
  refine ⟨hcard, ?_, mul_six_succ_one32, by norm_num, by norm_num⟩
  intro libm P
  have hl : to_int abcdefg.m_string.length = (abcdefg.m_string.length : Int) :=
    to_int_of_lt _ (by decide)
  rw [hl, score_features_float_score,
    ordered_score_bigram_model (binary32_arith libm) abcdefg.m_string _
      (fun n _ => binary32_add_zero_iterate libm _ (by norm_num) n)
      (binary32_mul_zero_of_int libm _ (by decide))
      (binary32_mul_zero_of_nat libm _ (le_trans (List.toFinset_card_le _) (by decide))),
    hcard]
  exact iterate_add_succ_one32

/-! ## A call against a table shorter than the code's layout -/

theorem length_slot_mem_weight_reads_float {F : Type} (A : float_arith F) (P : platform)
    (m : string_model F) (self : extracted_string)
    (h4 : 4 ≤ self.m_string.length) (h16 : self.m_string.length ≤ 16) :
    (118 + 118 + 118 * 118 : Int) ∈ weight_reads_float A P m self := by
  rw [weight_reads_float_in_model A P m self h4 h16, mem_score_features_float_reads]
  exact Or.inr (Or.inl rfl)

theorem distinct_slot_mem_weight_reads_float {F : Type} (A : float_arith F) (P : platform)
    (m : string_model F) (self : extracted_string)
    (h4 : 4 ≤ self.m_string.length) (h16 : self.m_string.length ≤ 16) :
    (118 + 118 + 118 * 118 + 2 : Int) ∈ weight_reads_float A P m self := by
  rw [weight_reads_float_in_model A P m self h4 h16, mem_score_features_float_reads]
  exact Or.inr (Or.inr rfl)

theorem weight_reads_float_bound {F : Type} (A : float_arith F) (P : platform)
    (m : string_model F) (self : extracted_string) (k : Int)
    (hk : k ∈ weight_reads_float A P m self) : 0 ≤ k ∧ k < 118 + 118 + 118 * 118 + 3 := by
  unfold weight_reads_float at hk
  dsimp only at hk
  split_ifs at hk with h1 h2
  · simp at hk
  · simp at hk
  · rw [mem_score_features_float_reads] at hk
    rcases hk with ⟨i, -, hi⟩ | rfl | rfl
    · exact position_reads_bound _ _ _ _ _ hi
    · omega
    · omega

/-- A call against a table with fewer than `118+118+118*118+3` entries reads past its end. -/
theorem on_table_short {F : Type} (A : float_arith F) (P : platform) (t : weight_table F)
    (self : extracted_string) (h4 : 4 ≤ self.m_string.length) (h16 : self.m_string.length ≤ 16)
    (hshort : t.weights.length < 118 + 118 + 118 * 118 + 3) :
    get_proba_interesting_on_table A P t self = .undefined_behaviour := by
  unfold get_proba_interesting_on_table
  rw [if_neg]
  intro h
  have h2 := (h _ (distinct_slot_mem_weight_reads_float A P (t.memory A.zero) self h4 h16)).2
  omega

/-- A call against a table with at least `118+118+118*118+3` entries returns the value the
code computes from the table. -/
theorem on_table_full {F : Type} (A : float_arith F) (P : platform) (t : weight_table F)
    (self : extracted_string) (hfull : 118 + 118 + 118 * 118 + 3 ≤ t.weights.length) :
    get_proba_interesting_on_table A P t self
      = .returns (get_proba_interesting_float A P (t.memory A.zero) self) := by
  unfold get_proba_interesting_on_table
  rw [if_pos]
  intro k hk
  have h := weight_reads_float_bound A P _ self k hk
  exact ⟨h.1, by omega⟩

/-- C8 (as amended): for every text of length 4 to 16 and every weight table with fewer
than `118+118+118*118+3` entries, `get_proba_interesting` makes no bounds check and reports
no `InvalidModelError`: it reads `string_model::weights` at the index `118+118+118*118+2`,
which is past the end of the table, so the behaviour of the call is undefined. -/
theorem short_table_read_is_undefined {F : Type} (A : float_arith F) (P : platform)
    (t : weight_table F) (self : extracted_string)
    (h4 : 4 ≤ self.m_string.length) (h16 : self.m_string.length ≤ 16)
    (hshort : t.weights.length < 118 + 118 + 118 * 118 + 3) :
    (118 + 118 + 118 * 118 + 2 : Int) ∈ weight_reads_float A P (t.memory A.zero) self ∧
    (t.weights.length : Int) ≤ 118 + 118 + 118 * 118 + 2 ∧
    get_proba_interesting_on_table A P t self = .undefined_behaviour ∧
    get_proba_interesting_on_table A P t self ≠ .invalid_model_error := by
  have hu := on_table_short A P t self h4 h16 hshort
  refine ⟨distinct_slot_mem_weight_reads_float A P _ self h4 h16, by omega, hu, ?_⟩
  rw [hu]
  exact fun h => call_outcome.noConfusion h

/-- C8 (witness): `"abcd"` against a binary32 table of the declared length 14045. -/
theorem short_table_read_is_undefined_witness :
    4 ≤ abcd.m_string.length ∧ abcd.m_string.length ≤ 16 ∧
    (weight_table.mk (binary32.fin false 0)
      (List.replicate 14045 (binary32.fin false 0))).weights.length
        < 118 + 118 + 118 * 118 + 3 ∧
    get_proba_interesting_on_table (binary32_arith (fun _ => .nan)) ⟨true, false⟩
      ⟨.fin false 0, List.replicate 14045 (.fin false 0)⟩ abcd = .undefined_behaviour :=
  ⟨by decide, by decide, by rw [List.length_replicate]; norm_num,
    (short_table_read_is_undefined (binary32_arith (fun _ => .nan)) ⟨true, false⟩
      ⟨.fin false 0, List.replicate 14045 (.fin false 0)⟩ abcd (by decide) (by decide)
      (by rw [List.length_replicate]; norm_num)).2.2.1⟩

/-- C8 (counterexample): `"abcd"` against a table of the declared length 14045, which is
shorter than the index range scoring requires: the call reads the index `118+118+118*118`,
past the end of the table, and what it comes to is not an `InvalidModelError`. -/
theorem short_table_reports_no_error :
    4 ≤ abcd.m_string.length ∧ abcd.m_string.length ≤ 16 ∧
    (118 + 118 + 118 * 118 : Int) ∈ weight_reads_float (binary32_arith (fun _ => .nan))
      ⟨true, false⟩
      ((weight_table.mk (binary32.fin false 0)
        (List.replicate 14045 (binary32.fin false 0))).memory (.fin false 0)) abcd ∧
    ((weight_table.mk (binary32.fin false 0)
      (List.replicate 14045 (binary32.fin false 0))).weights.length : Int)
        ≤ 118 + 118 + 118 * 118 ∧
    get_proba_interesting_on_table (binary32_arith (fun _ => .nan)) ⟨true, false⟩
      ⟨.fin false 0, List.replicate 14045 (.fin false 0)⟩ abcd ≠ .invalid_model_error := by
  refine ⟨by decide, by decide,
    length_slot_mem_weight_reads_float _ _ _ abcd (by decide) (by decide), ?_, ?_⟩
  · rw [List.length_replicate]
    norm_num
  · rw [on_table_short _ _ _ abcd (by decide) (by decide)
      (by rw [List.length_replicate]; norm_num)]
    exact fun h => call_outcome.noConfusion h

/-! ## The length guard and the comment above it -/

/-- In binary32, with bias `+0` and every weight `+0`, the loop leaves the score at `+0`. -/
theorem foldl_position_update_zero32 (libm : ℚ → binary32) (m : string_model binary32)
    (hw : ∀ j, m.weights j = .fin false 0) (str : List Byte) (l : List Nat) :
    l.foldl (position_update (binary32_arith libm) m str) (.fin false 0) = .fin false 0 := by
  induction l with
  | nil => rfl
  | cons i l ih =>
    have hadd : (binary32_arith libm).add = binary32.add := rfl
    have h : position_update (binary32_arith libm) m str (.fin false 0) i = .fin false 0 := by
      unfold position_update
      split_ifs <;> simp only [hw, hadd, add_zero_zero]
    rw [List.foldl_cons, h, ih]

theorem ordered_score_zero32 (libm : ℚ → binary32) (m : string_model binary32)
    (hb : m.bias = .fin false 0) (hw : ∀ j, m.weights j = .fin false 0) (str : List Byte)
    (h16 : str.length ≤ 16) :
    ordered_score (binary32_arith libm) m str = .fin false 0 := by
  unfold ordered_score
  rw [hb, foldl_position_update_zero32 libm m hw, hw, hw]
  have h1 := binary32_mul_zero_of_int libm str.length h16
  have h2 := binary32_mul_zero_of_nat libm str.toFinset.card
    (le_trans (List.toFinset_card_le _) h16)
  have hz : (binary32_arith libm).zero = .fin false 0 := rfl
  rw [hz] at h1 h2
  rw [h1, h2]
  have hadd : (binary32_arith libm).add = binary32.add := rfl
  rw [hadd, add_zero_zero, add_zero_zero]

/-- C19 (code bug): the comment above the guards says the model supports only lengths 4 to 7
and that longer strings are assumed interesting, but the guard is `l > 16`. The eight-byte
text `"abcdefgh"` is longer than 7, yet the code evaluates the model on it: with bias 0 and
every weight 0 it reads the weight table (the length weight among others) and returns `0.5`,
not `1.0`, and `is_interesting` returns `false`. -/
theorem eight_bytes_scored_by_model :
    7 < abcdefgh.m_string.length ∧
    (∀ (libm : ℚ → binary32) (P : platform),
      get_proba_interesting_float (binary32_arith libm) P (slot_model32 0 (.fin false 0))
        abcdefgh = .fin false (1 / 2)) ∧
    (∀ (libm : ℚ → binary32) (P : platform),
      is_interesting_float (binary32_arith libm) P (slot_model32 0 (.fin false 0))
        abcdefgh = false) ∧
    (∀ (libm : ℚ → binary32) (P : platform),
      length_index ∈ weight_reads_float (binary32_arith libm) P
        (slot_model32 0 (.fin false 0)) abcdefgh) := by
  have hp : ∀ (libm : ℚ → binary32) (P : platform),
      get_proba_interesting_float (binary32_arith libm) P (slot_model32 0 (.fin false 0))
        abcdefgh = .fin false (1 / 2) := by
    intro libm P
    rw [get_proba_interesting_float_in_model _ _ _ _ (by decide) (by decide),
      ordered_score_zero32 libm _ rfl (fun j => by simp [slot_model32]) _ (by decide)]
    exact logistic32_zero libm false
  refine ⟨by decide, hp, ?_, ?_⟩
  · intro libm P
    unfold is_interesting_float
    rw [hp]
    show decide (signed false (1 / 2) < signed false (1 / 2)) = false
    exact decide_eq_false (lt_irrefl _)
  · intro libm P
    exact length_slot_mem_weight_reads_float _ _ _ abcdefgh (by decide) (by decide)

end Strings2
